import Mathlib

/-!
# LinearRankSort: a shallow embedding of `linearRankSort.hpp`

The C++ source packs `k` small unsigned fields into one `std::uintmax_t`
word and sorts a range of distinct integers with a cycle placement loop that
asks the packed word for the rank of each element.

Conventions of the embedding.

* `T = std::uintmax_t` and `std::size_t` are 64 bit unsigned integers.  They
  are natural numbers below `wordMod = 2 ^ 64`; every arithmetic operation of
  the source is followed by an explicit reduction modulo `wordMod`.
* The literal `1` in `1 << (b+1)` and `1 << b` is a 32 bit `int`.  The shift is
  evaluated in `int` (`shlInt`) and only then converted to `T` (`toT`).
* `std::ceil(std::log2(x))` is modelled by the exact ceiling of the binary
  logarithm (`ceilLog2`); floating point rounding is not modelled.
* Elements of the sorted range are mathematical integers; differences of
  elements are exact and are reduced modulo `2 ^ 64` where the source converts
  them to `std::size_t` or `T`.
* `throw std::overflow_error` and an `iter_swap` whose partner lies outside
  `[begin, end)` end a run with a distinguished `Outcome`.
-/

namespace bxlx

/-- Modulus of the 64 bit unsigned types `std::uintmax_t` and `std::size_t`. -/
def wordMod : Nat := 2 ^ 64

/-- Conversion of a mathematical integer to the unsigned 64 bit type. -/
def toT (x : Int) : Nat := (x % (2 ^ 64 : Int)).toNat

/-- Value of a 32 bit `int` holding the low 32 bits of `x` (two's complement). -/
def wrapInt32 (x : Int) : Int := (x + 2 ^ 31) % 2 ^ 32 - 2 ^ 31

/-- The expression `1 << s` with the `int` literal `1`: the exact product
`2 ^ s` reduced to the 32 bit `int`.  It is `2 ^ s` for `s < 31` and `INT_MIN`
for `s = 31`.  For `s ≥ 32` the C++ shift is undefined; the embedding then
yields `0`, the low 32 bits of the exact product. -/
def shlInt (s : Nat) : Int := wrapInt32 (2 ^ s)

/-- Conversion of a 64 bit unsigned offset to the signed `difference_type`. -/
def toDiff (x : Nat) : Int := if x % 2 ^ 64 < 2 ^ 63 then (x % 2 ^ 64 : Nat) else (x % 2 ^ 64 : Nat) - 2 ^ 64

/-- Search used by `ceilLog2`: the least `c ≥ b` with `x ≤ 2 ^ c`, looking at
most `fuel` steps ahead. -/
def ceilLog2Aux : Nat → Nat → Nat → Nat
  | 0, _, b => b
  | fuel + 1, x, b => if x ≤ 2 ^ b then b else ceilLog2Aux fuel x (b + 1)

/-- The value `static_cast<T>(std::ceil(std::log2(x)))` for a `std::size_t`
argument `x`: the least `b` with `x ≤ 2 ^ b` (at most `64` for a 64 bit
argument).  For `x = 0` the source casts minus infinity, which is undefined;
the embedding yields `0`. -/
def ceilLog2 (x : Nat) : Nat := ceilLog2Aux 64 x 0

namespace detail

/-- Recursion of `numberOfBits`, unfolded at most `fuel` times. -/
def numberOfBitsAux : Nat → Nat → Nat
  | 0, x => x
  | fuel + 1, x => if x < 2 then x else 1 + numberOfBitsAux fuel (x >>> 1)

/-- `ConstTimeRankVec::numberOfBits`: `x < 2 ? x : 1 + numberOfBits(x >> 1)`.
A 64 bit argument needs at most 64 unfoldings. -/
def numberOfBits (x : Nat) : Nat := numberOfBitsAux 64 x

/-- `ConstTimeRankVec::usableBits = numberOfBits(numeric_limits<T>::max())`. -/
def usableBits : Nat := numberOfBits (wordMod - 1)

/-- The data members of `ConstTimeRankVec<std::uintmax_t>`. -/
structure ConstTimeRankVec where
  b : Nat
  mul : Nat
  bMod : Nat
  k : Nat
  data : Nat
  deriving DecidableEq, Repr

namespace ConstTimeRankVec

/-- Bit offset of field `index`: the product `(b+1) * index` in 64 bit
unsigned arithmetic. -/
def offset (v : ConstTimeRankVec) (index : Nat) : Nat :=
  ((v.b + 1) % wordMod * index) % wordMod

/-- `set(index, elem)`: `data ^= elem << (b+1) * index`. -/
def set (v : ConstTimeRankVec) (index elem : Nat) : ConstTimeRankVec :=
  { v with data := v.data ^^^ ((elem <<< v.offset index) % wordMod) }

/-- `get(index)`: `data >> (b+1) * index & bMod`. -/
def get (v : ConstTimeRankVec) (index : Nat) : Nat :=
  (v.data >>> v.offset index) &&& v.bMod

/-- `size()`. -/
def size (v : ConstTimeRankVec) : Nat := v.k

/-- `swap(lhs, rhs)`: `tmp = get(lhs) ^ get(rhs); set(lhs, tmp); set(rhs, tmp)`. -/
def swap (v : ConstTimeRankVec) (lhs rhs : Nat) : ConstTimeRankVec :=
  let tmp := v.get lhs ^^^ v.get rhs
  (v.set lhs tmp).set rhs tmp

/-- `erase(index)`: `data &= ~(bMod << (b+1) * index)`. -/
def erase (v : ConstTimeRankVec) (index : Nat) : ConstTimeRankVec :=
  { v with data := v.data &&& (wordMod - 1 - (v.bMod <<< v.offset index) % wordMod) }

/-- The common subexpression `((get(index) + (1 << b)) * mul - data) >> b` of
the three rank functions, in 64 bit unsigned arithmetic. -/
def carries (v : ConstTimeRankVec) (index : Nat) : Nat :=
  ((((v.get index + toT (shlInt v.b)) % wordMod * v.mul) % wordMod + wordMod - v.data) % wordMod) >>> v.b

/-- `rank(index)`:
`(((get(index) + (1 << b)) * mul - data) >> b & mul) % bMod - 1`. -/
def rank (v : ConstTimeRankVec) (index : Nat) : Nat :=
  ((v.carries index &&& v.mul) % v.bMod + wordMod - 1) % wordMod

/-- `rank_bigger(index)`:
`(((get(index) + (1 << b)) * mul - data) >> b >> index * (b+1) & mul) % bMod - 1`. -/
def rank_bigger (v : ConstTimeRankVec) (index : Nat) : Nat :=
  (((v.carries index >>> ((index * ((v.b + 1) % wordMod)) % wordMod)) &&& v.mul) % v.bMod
    + wordMod - 1) % wordMod

/-- `rank_lower(index)`:
`(((get(index) + (1 << b)) * mul - data) >> b & mul >> index * (b+1)) % bMod - 1`. -/
def rank_lower (v : ConstTimeRankVec) (index : Nat) : Nat :=
  ((v.carries index &&& (v.mul >>> ((index * ((v.b + 1) % wordMod)) % wordMod))) % v.bMod
    + wordMod - 1) % wordMod

/-- The loop `for (i = 0; i < k; ++i) set(i, 1)` of the constructor, started at
index `i` with `n` iterations left. -/
def fillOnes : Nat → Nat → ConstTimeRankVec → ConstTimeRankVec
  | 0, _, v => v
  | n + 1, i, v => fillOnes n (i + 1) (v.set i 1)

/-- `assign(begin, end, toE)`: `set(index, toE(*cur))` for the elements in
sequence order, `index` counting up from `index`.  The list holds the already
converted values `toE(*cur)`. -/
def assignFrom : Nat → List Nat → ConstTimeRankVec → ConstTimeRankVec
  | _, [], v => v
  | index, e :: es, v => assignFrom ((index + 1) % wordMod) es (v.set index e)

/-- `assign(begin, end, toE)` starting at index `T{}`. -/
def assign (v : ConstTimeRankVec) (elems : List Nat) : ConstTimeRankVec :=
  assignFrom 0 elems v

end ConstTimeRankVec

/-- The member initialisers of `ConstTimeRankVec(k, other)`:
`b(ceil(log2(k + other)))`, `mul{}`, `bMod(static_cast<T>(1 << (b+1)) - 1)`,
`k{k}`, `data{}`. -/
def initVec (k other : Nat) : ConstTimeRankVec :=
  let b := ceilLog2 ((k + other) % wordMod)
  { b := b
    mul := 0
    bMod := (toT (shlInt ((b + 1) % wordMod)) + wordMod - 1) % wordMod
    k := k
    data := 0 }

/-- The test `k * (b+1) > usableBits` of the constructor, the product taken in
64 bit unsigned arithmetic. -/
def overCapacity (v : ConstTimeRankVec) : Bool :=
  decide ((v.k * ((v.b + 1) % wordMod)) % wordMod > usableBits)

/-- The constructor `ConstTimeRankVec(k, other)`.  `none` stands for
`throw std::overflow_error`.  After the check every slot is set to `1`, the
word is moved to `mul` and `data` is left zero (`std::swap(data, mul)`). -/
def construct (k other : Nat) : Option ConstTimeRankVec :=
  let v := initVec k other
  if overCapacity v then none
  else
    let filled := ConstTimeRankVec.fillOnes k 0 v
    some { filled with data := filled.mul, mul := filled.data }

/-- The constructor `ConstTimeRankVec(begin, end, other, toE)`: delegates to
`ConstTimeRankVec(distance(begin, end), other)` and then assigns.  The list
holds the converted values `toE(*cur)`. -/
def constructFrom (elems : List Nat) (other : Nat) : Option ConstTimeRankVec :=
  (construct (elems.length % wordMod) other).map (fun v => v.assign elems)

end detail

/-- How a call of `linearRankSort` ends.

* `done seq swaps`: normal return; `seq` is the range afterwards and `swaps`
  the number of `std::iter_swap` calls made.
* `overflowError`: `std::overflow_error` left the function.
* `outOfRange i target`: with the cursor at position `i` the loop called
  `std::iter_swap(it, std::next(it, rank - i))` for a position `target` outside
  `[0, n)`, an access outside `[begin, end)`.
* `outOfFuel`: the loop was still running after the given number of
  iterations. -/
inductive Outcome
  | done (seq : List Int) (swaps : Nat)
  | overflowError
  | outOfRange (i : Nat) (target : Int)
  | outOfFuel
  deriving DecidableEq, Repr

/-- `std::iter_swap` on two positions of the range. -/
def iterSwap (seq : List Int) (i j : Nat) : List Int :=
  (seq.set i (seq.getD j 0)).set j (seq.getD i 0)

/-- The placement loop of `linearRankSort`
```
for (std::size_t i{}; i < n;)
    if (auto rank = rankVec.rank(i); rank != i) {
        std::iter_swap(it, std::next(it, rank - i));
        rankVec.swap(i, rank);
    } else
        ++i, ++it;
```
run for at most `fuel` iterations.  The iterator `it` always points at
position `i`; the offset `rank - i` is a `std::size_t` converted to the
iterator difference type. -/
def placementLoop : Nat → Nat → Nat → List Int → detail.ConstTimeRankVec → Nat → Outcome
  | 0, _, _, _, _, _ => Outcome.outOfFuel
  | fuel + 1, n, i, seq, rankVec, swaps =>
    if i < n then
      let rank := rankVec.rank i
      if rank ≠ i then
        let target : Int := (i : Int) + toDiff ((rank + wordMod - i) % wordMod)
        if 0 ≤ target ∧ target < (n : Int) then
          placementLoop fuel n i (iterSwap seq i target.toNat) (rankVec.swap i rank) (swaps + 1)
        else Outcome.outOfRange i target
      else placementLoop fuel n (i + 1) seq rankVec swaps
    else Outcome.done seq swaps

/-- `*std::min_element(begin, end)` of a non-empty range `x :: xs`. -/
def minElement (x : Int) (xs : List Int) : Int := xs.foldl min x

/-- `*std::max_element(begin, end)` of a non-empty range `x :: xs`. -/
def maxElement (x : Int) (xs : List Int) : Int := xs.foldl max x

/-- The function `linearRankSort<std::uintmax_t, calculateMinMax>(begin, end)`,
its placement loop run for at most `fuel` iterations.

`n = std::distance(begin, end)`, `r = n`, `minE{}`; with `calculateMinMax` the
scan sets `r = *max - (minE = *min) + 1`; the rank vector is built from the
elements mapped through `elem - minE` with `other = r - n`. -/
def linearRankSort (calculateMinMax : Bool) (fuel : Nat) (seq : List Int) : Outcome :=
  match seq with
  | [] => Outcome.done [] 0
  | x :: xs =>
    let n := (x :: xs).length % wordMod
    let minE : Int := if calculateMinMax then minElement x xs else 0
    let r : Nat := if calculateMinMax then toT (maxElement x xs - minE + 1) else n
    match detail.constructFrom ((x :: xs).map (fun e => toT (e - minE))) ((r + wordMod - n) % wordMod) with
    | none => Outcome.overflowError
    | some rankVec => placementLoop fuel n 0 (x :: xs) rankVec 0

/-- The contents of the range when the placement loop of `linearRankSort`
stops, however it stops: the loop writes the range only through
`std::iter_swap`. -/
def placementLoopRange : Nat → Nat → Nat → List Int → detail.ConstTimeRankVec → List Int
  | 0, _, _, seq, _ => seq
  | fuel + 1, n, i, seq, rankVec =>
    if i < n then
      let rank := rankVec.rank i
      if rank ≠ i then
        let target : Int := (i : Int) + toDiff ((rank + wordMod - i) % wordMod)
        if 0 ≤ target ∧ target < (n : Int) then
          placementLoopRange fuel n i (iterSwap seq i target.toNat) (rankVec.swap i rank)
        else seq
      else placementLoopRange fuel n (i + 1) seq rankVec
    else seq

/-- The contents of the caller's range after the call of `linearRankSort`,
however the call ends.  The scans for the minimum and the maximum and the
constructor of the rank vector only read the range; when the constructor
throws, the placement loop is not reached. -/
def rangeAfter (calculateMinMax : Bool) (fuel : Nat) (seq : List Int) : List Int :=
  match seq with
  | [] => []
  | x :: xs =>
    let n := (x :: xs).length % wordMod
    let minE : Int := if calculateMinMax then minElement x xs else 0
    let r : Nat := if calculateMinMax then toT (maxElement x xs - minE + 1) else n
    match detail.constructFrom ((x :: xs).map (fun e => toT (e - minE))) ((r + wordMod - n) % wordMod) with
    | none => x :: xs
    | some rankVec => placementLoopRange fuel n 0 (x :: xs) rankVec

/-! ### Specification level description of the packed word -/

/-- The word whose field number `j` (fields are `w` bits wide, field `0` is the
lowest) holds the `j`-th entry of the list. -/
def pack (w : Nat) : List Nat → Nat
  | [] => 0
  | v :: vs => v + 2 ^ w * pack w vs

/-- `Packed v vals`: the `k` fields of `data` hold the entries of `vals`, the
fields fit the word, and the shift with the `int` literal `1` that computes
the mask is exact (`b + 1 ≤ 30`), so that `bMod = 2 ^ (b+1) - 1`. -/
structure Packed (v : detail.ConstTimeRankVec) (vals : List Nat) : Prop where
  width : v.b + 1 ≤ 30
  mask : v.bMod = 2 ^ (v.b + 1) - 1
  size : vals.length = v.k
  fits : v.k * (v.b + 1) ≤ 64
  small : ∀ x ∈ vals, x < 2 ^ (v.b + 1)
  data : v.data = pack (v.b + 1) vals

/-- `Holds v vals`: the state of a constructed vector whose slots hold `vals`:
`Packed v vals`, `mul` has a `1` in every field, and `k ≤ 2 ^ b`. -/
structure Holds (v : detail.ConstTimeRankVec) (vals : List Nat) : Prop where
  packed : Packed v vals
  count : v.k ≤ 2 ^ v.b
  ones : v.mul = pack (v.b + 1) (List.replicate v.k 1)

/-- The list `vals` with the entries at positions `i` and `j` exchanged. -/
def swapAt (vals : List Nat) (i j : Nat) : List Nat :=
  (vals.set i (vals.getD j 0)).set j (vals.getD i 0)

/-! ### Specification level description of the placement loop -/

/-- Number of elements of `l` smaller than `e`; for an element of a list
without duplicates this is its position in ascending order. -/
def rankOf (l : List Int) (e : Int) : Nat := l.countP (fun y => decide (y < e))

/-- The positions of `seq` that do not hold the element whose rank among the
elements of `l` is that position. -/
def unplaced (l seq : List Int) : Finset Nat :=
  (Finset.range seq.length).filter (fun j => rankOf l (seq.getD j 0) ≠ j)

/-- Invariant of the placement loop of `linearRankSort` on the input `l`,
whose elements are stored in the rank vector through the map `sh`: the range
holds a permutation of `l`, slot `p` of the rank vector holds the image of the
element at position `p`, and every position before the cursor `i` holds the
element of that rank. -/
structure LoopInv (l : List Int) (sh : Int → Nat) (i : Nat) (seq : List Int)
    (vec : detail.ConstTimeRankVec) : Prop where
  perm : seq.Perm l
  holds : Holds vec (seq.map sh)
  placed : ∀ j, j < i → rankOf l (seq.getD j 0) = j
  cursor : i ≤ l.length
  size : vec.k = l.length
  bits : 1 ≤ vec.b
  small : ∀ x ∈ l, sh x < 2 ^ vec.b

end bxlx

/-! ## Unfolding lemmas -/

namespace bxlx

open detail

theorem usableBits_eq : usableBits = 64 := by decide

theorem construct_eq_none_iff (k other : Nat) :
    construct k other = none ↔ overCapacity (initVec k other) = true := by
  unfold construct
  cases h : overCapacity (initVec k other) <;> simp [h]

theorem linearRankSort_true_cons (fuel : Nat) (x : Int) (xs : List Int) :
    linearRankSort true fuel (x :: xs) =
      match detail.constructFrom ((x :: xs).map (fun e => toT (e - minElement x xs)))
        ((toT (maxElement x xs - minElement x xs + 1) + wordMod - (x :: xs).length % wordMod)
          % wordMod) with
      | none => Outcome.overflowError
      | some rankVec => placementLoop fuel ((x :: xs).length % wordMod) 0 (x :: xs) rankVec 0 :=
  rfl

theorem linearRankSort_false_cons (fuel : Nat) (x : Int) (xs : List Int) :
    linearRankSort false fuel (x :: xs) =
      match detail.constructFrom ((x :: xs).map (fun e => toT (e - 0)))
        (((x :: xs).length % wordMod + wordMod - (x :: xs).length % wordMod) % wordMod) with
      | none => Outcome.overflowError
      | some rankVec => placementLoop fuel ((x :: xs).length % wordMod) 0 (x :: xs) rankVec 0 :=
  rfl

theorem placementLoop_succ (fuel n i : Nat) (seq : List Int) (rankVec : ConstTimeRankVec)
    (swaps : Nat) :
    placementLoop (fuel + 1) n i seq rankVec swaps =
      if i < n then
        if rankVec.rank i ≠ i then
          if 0 ≤ (i : Int) + toDiff ((rankVec.rank i + wordMod - i) % wordMod) ∧
              (i : Int) + toDiff ((rankVec.rank i + wordMod - i) % wordMod) < (n : Int) then
            placementLoop fuel n i
              (iterSwap seq i ((i : Int) + toDiff ((rankVec.rank i + wordMod - i) % wordMod)).toNat)
              (rankVec.swap i (rankVec.rank i)) (swaps + 1)
          else Outcome.outOfRange i ((i : Int) + toDiff ((rankVec.rank i + wordMod - i) % wordMod))
        else placementLoop fuel n (i + 1) seq rankVec swaps
      else Outcome.done seq swaps :=
  rfl

theorem linearRankSort_cons (c : Bool) (fuel : Nat) (x : Int) (xs : List Int) :
    linearRankSort c fuel (x :: xs) =
      match detail.constructFrom
        ((x :: xs).map (fun e => toT (e - (if c then minElement x xs else 0))))
        (((if c then toT (maxElement x xs - (if c then minElement x xs else 0) + 1)
            else (x :: xs).length % wordMod) + wordMod - (x :: xs).length % wordMod)
          % wordMod) with
      | none => Outcome.overflowError
      | some rankVec => placementLoop fuel ((x :: xs).length % wordMod) 0 (x :: xs) rankVec 0 :=
  rfl

theorem rangeAfter_cons (c : Bool) (fuel : Nat) (x : Int) (xs : List Int) :
    rangeAfter c fuel (x :: xs) =
      match detail.constructFrom
        ((x :: xs).map (fun e => toT (e - (if c then minElement x xs else 0))))
        (((if c then toT (maxElement x xs - (if c then minElement x xs else 0) + 1)
            else (x :: xs).length % wordMod) + wordMod - (x :: xs).length % wordMod)
          % wordMod) with
      | none => x :: xs
      | some rankVec => placementLoopRange fuel ((x :: xs).length % wordMod) 0 (x :: xs) rankVec :=
  rfl

theorem placementLoopRange_succ (fuel n i : Nat) (seq : List Int) (rankVec : ConstTimeRankVec) :
    placementLoopRange (fuel + 1) n i seq rankVec =
      if i < n then
        if rankVec.rank i ≠ i then
          if 0 ≤ (i : Int) + toDiff ((rankVec.rank i + wordMod - i) % wordMod) ∧
              (i : Int) + toDiff ((rankVec.rank i + wordMod - i) % wordMod) < (n : Int) then
            placementLoopRange fuel n i
              (iterSwap seq i ((i : Int) + toDiff ((rankVec.rank i + wordMod - i) % wordMod)).toNat)
              (rankVec.swap i (rankVec.rank i))
          else seq
        else placementLoopRange fuel n (i + 1) seq rankVec
      else seq :=
  rfl

theorem placementLoopRange_of_done (fuel n i : Nat) (seq : List Int) (rankVec : ConstTimeRankVec)
    (swaps : Nat) (out : List Int) (s : Nat)
    (h : placementLoop fuel n i seq rankVec swaps = Outcome.done out s) :
    placementLoopRange fuel n i seq rankVec = out := by
  induction fuel generalizing i seq rankVec swaps with
  | zero => exact Outcome.noConfusion h
  | succ f ih =>
    rw [placementLoop_succ] at h
    rw [placementLoopRange_succ]
    split at h
    · rw [if_pos (by assumption)]
      split at h
      · rw [if_pos (by assumption)]
        split at h
        · rw [if_pos (by assumption)]
          exact ih _ _ _ _ h
        · exact Outcome.noConfusion h
      · rw [if_neg (by assumption)]
        exact ih _ _ _ _ h
    · rw [if_neg (by assumption)]
      exact (Outcome.done.inj h).1

/-- The model `rangeAfter` agrees with the returned range whenever the call
returns normally. -/
theorem rangeAfter_of_done (c : Bool) (fuel : Nat) (seq out : List Int) (s : Nat)
    (h : linearRankSort c fuel seq = Outcome.done out s) : rangeAfter c fuel seq = out := by
  cases seq with
  | nil => exact (Outcome.done.inj h).1
  | cons x xs =>
    rw [linearRankSort_cons] at h
    rw [rangeAfter_cons]
    generalize detail.constructFrom _ _ = o at h ⊢
    cases o with
    | none => exact Outcome.noConfusion h
    | some v => exact placementLoopRange_of_done _ _ _ _ _ _ _ _ h

/-! ## The ceiling of the binary logarithm -/

theorem ceilLog2Aux_spec (fuel x b : Nat) (hlow : ∀ c, c < b → ¬ x ≤ 2 ^ c)
    (hhigh : x ≤ 2 ^ (b + fuel)) :
    x ≤ 2 ^ ceilLog2Aux fuel x b ∧ ∀ c, c < ceilLog2Aux fuel x b → ¬ x ≤ 2 ^ c := by
  induction fuel generalizing b with
  | zero => exact ⟨by simpa [ceilLog2Aux] using hhigh, by simpa [ceilLog2Aux] using hlow⟩
  | succ f ih =>
    unfold ceilLog2Aux
    by_cases h : x ≤ 2 ^ b
    · rw [if_pos h]; exact ⟨h, hlow⟩
    · rw [if_neg h]
      apply ih
      · intro c hc
        rcases Nat.lt_succ_iff_lt_or_eq.mp hc with h1 | h1
        · exact hlow c h1
        · rw [h1]; exact h
      · rw [show b + 1 + f = b + (f + 1) by omega]; exact hhigh

theorem ceilLog2_eq_clog (x : Nat) (hx : x ≤ 2 ^ 64) : ceilLog2 x = Nat.clog 2 x := by
  have h := ceilLog2Aux_spec 64 x 0 (fun c hc => absurd hc (Nat.not_lt_zero c)) (by simpa using hx)
  apply le_antisymm
  · by_contra hlt
    exact h.2 _ (not_le.mp hlt) (Nat.le_pow_clog (by decide) x)
  · exact (Nat.le_pow_iff_clog_le (by decide)).mp h.1

theorem ceilLog2_le_iff (x b : Nat) (hx : x ≤ 2 ^ 64) : ceilLog2 x ≤ b ↔ x ≤ 2 ^ b := by
  rw [ceilLog2_eq_clog x hx]; exact (Nat.le_pow_iff_clog_le (by decide)).symm

theorem ceilLog2_le_64 (x : Nat) (hx : x ≤ 2 ^ 64) : ceilLog2 x ≤ 64 :=
  (ceilLog2_le_iff x 64 hx).mpr hx

/-! ## The capacity check of the constructor -/

theorem overCapacity_initVec (k other : Nat) :
    overCapacity (initVec k other) = true ↔
      64 < (k * ((ceilLog2 ((k + other) % wordMod) + 1) % wordMod)) % wordMod := by
  simp only [overCapacity, initVec, usableBits_eq, decide_eq_true_eq, gt_iff_lt]

/-- Where neither `k + other` nor the product of the check wraps around, the
constructor throws exactly when `k * (ceil(log2(k + other)) + 1) > 64`. -/
theorem construct_eq_none_of_lt (k other : Nat) (hr : k + other < 2 ^ 64)
    (hk : k * 65 < 2 ^ 64) :
    construct k other = none ↔ 64 < k * (Nat.clog 2 (k + other) + 1) := by
  have hW : wordMod = 2 ^ 64 := rfl
  have hb := ceilLog2_le_64 (k + other) (le_of_lt hr)
  rw [construct_eq_none_iff, overCapacity_initVec, hW, Nat.mod_eq_of_lt hr,
    ← ceilLog2_eq_clog _ (le_of_lt hr),
    Nat.mod_eq_of_lt (show ceilLog2 (k + other) + 1 < 2 ^ 64 by omega)]
  have h2 : k * (ceilLog2 (k + other) + 1) ≤ k * 65 := Nat.mul_le_mul_left k (by omega)
  rw [Nat.mod_eq_of_lt (lt_of_le_of_lt h2 hk)]

/-- The boundary named in the specification: `k = 8` with `k + extra = 128`
uses exactly 64 bits and is accepted, `k + extra = 129` is rejected. -/
theorem construct_boundary : construct 8 (128 - 8) ≠ none ∧ construct 8 (129 - 8) = none := by
  decide

theorem table_row (n e : Nat) (hn12 : n ≤ 12) (hacc : n * (e + 1) ≤ 64)
    (hrej : 64 < n * (e + 2)) (hne : n ≤ 2 ^ e) (he : e ≤ 63) :
    construct n (2 ^ e - n) ≠ none ∧
      ∀ r, 2 ^ e < r → r < 2 ^ 64 → construct n (r - n) = none := by
  have hpow : 2 ^ e < 2 ^ 64 := Nat.pow_lt_pow_right (by decide) (by omega)
  constructor
  · rw [Ne, construct_eq_none_of_lt n (2 ^ e - n) (by omega) (by omega),
      show n + (2 ^ e - n) = 2 ^ e by omega, Nat.clog_pow 2 e (by decide)]
    omega
  · intro r h1 h2
    rw [construct_eq_none_of_lt n (r - n) (by omega) (by omega),
      show n + (r - n) = r by omega]
    have h3 : ¬ Nat.clog 2 r ≤ e := fun hle =>
      absurd ((Nat.le_pow_iff_clog_le (by decide)).mpr hle) (not_le.mpr h1)
    have h4 : n * (e + 2) ≤ n * (Nat.clog 2 r + 1) := Nat.mul_le_mul_left n (by omega)
    omega

/-- The table of the source comment, row by row: for `n = 2, ..., 12` the
constructor accepts `ConstTimeRankVec(n, r - n)` at the listed largest range
`r = 2 ^ e` and rejects every larger 64 bit range. -/
theorem capacity_table :
    ∀ p ∈ [(2, 31), (3, 20), (4, 15), (5, 11), (6, 9), (7, 8), (8, 7), (9, 6), (10, 5),
        (11, 4), (12, 4)],
      construct p.1 (2 ^ p.2 - p.1) ≠ none ∧
        ∀ r, 2 ^ p.2 < r → r < 2 ^ 64 → construct p.1 (r - p.1) = none := by
  intro p hp
  simp only [List.mem_cons, List.mem_singleton, List.not_mem_nil, or_false] at hp
  rcases hp with h | h | h | h | h | h | h | h | h | h | h <;> subst h <;>
    exact table_row _ _ (by decide) (by decide) (by decide) (by decide) (by decide)

/-- With `r == n` the constructor accepts `n = 12`, rejects `n = 13`, and
rejects every larger `n` for which the product of the check does not wrap
around `2 ^ 64`. -/
theorem capacity_equal_range :
    construct 12 0 ≠ none ∧ construct 13 0 = none ∧
      ∀ n, 13 ≤ n → n * 65 < 2 ^ 64 → construct n 0 = none := by
  refine ⟨by decide, by decide, ?_⟩
  intro n h1 h2
  have h5 := construct_eq_none_of_lt n 0 (by omega) h2
  simp only [add_zero] at h5
  rw [h5]
  have h3 : ¬ Nat.clog 2 n ≤ 3 := fun hle =>
    absurd ((Nat.le_pow_iff_clog_le (by decide)).mpr hle) (by norm_num; omega)
  have h4 : n * 5 ≤ n * (Nat.clog 2 n + 1) := Nat.mul_le_mul_left n (by omega)
  omega

/-! ## The overflow error of `linearRankSort` -/

theorem placementLoop_ne_overflowError (fuel n i : Nat) (seq : List Int)
    (rankVec : ConstTimeRankVec) (swaps : Nat) :
    placementLoop fuel n i seq rankVec swaps ≠ Outcome.overflowError := by
  induction fuel generalizing i seq rankVec swaps with
  | zero => intro h; exact Outcome.noConfusion h
  | succ f ih =>
    rw [placementLoop_succ]
    split
    · split
      · split
        · exact ih _ _ _ _
        · intro h; exact Outcome.noConfusion h
      · exact ih _ _ _ _
    · intro h; exact Outcome.noConfusion h

theorem constructFrom_eq_none_iff (elems : List Nat) (other : Nat) :
    constructFrom elems other = none ↔ construct (elems.length % wordMod) other = none := by
  unfold constructFrom
  cases construct (elems.length % wordMod) other <;> simp

theorem linearRankSort_eq_overflowError_iff (fuel : Nat) (x : Int) (xs : List Int) :
    linearRankSort true fuel (x :: xs) = Outcome.overflowError ↔
      construct ((x :: xs).length % wordMod)
        ((toT (maxElement x xs - minElement x xs + 1) + wordMod - (x :: xs).length % wordMod)
          % wordMod) = none := by
  have key := constructFrom_eq_none_iff (List.map (fun e => toT (e - minElement x xs)) (x :: xs))
      ((toT (maxElement x xs - minElement x xs + 1) + wordMod - (x :: xs).length % wordMod)
          % wordMod)
  rw [List.length_map] at key
  rw [linearRankSort_true_cons, ← key]
  cases h : constructFrom (List.map (fun e => toT (e - minElement x xs)) (x :: xs))
      ((toT (maxElement x xs - minElement x xs + 1) + wordMod - (x :: xs).length % wordMod)
          % wordMod) with
  | none => simp
  | some v => simpa using placementLoop_ne_overflowError _ _ _ _ _ _

theorem minElement_le (x : Int) (xs : List Int) : minElement x xs ≤ x := by
  unfold minElement
  induction xs generalizing x with
  | nil => exact le_refl x
  | cons y ys ih => exact le_trans (ih (min x y)) (min_le_left x y)

theorem le_maxElement (x : Int) (xs : List Int) : x ≤ maxElement x xs := by
  unfold maxElement
  induction xs generalizing x with
  | nil => exact le_refl x
  | cons y ys ih => exact le_trans (le_max_left x y) (ih (max x y))

theorem toT_of_lt (z : Int) (h0 : 0 ≤ z) (h1 : z < 2 ^ 64) : toT z = z.toNat := by
  unfold toT
  rw [Int.emod_eq_of_lt h0 h1]

/-- Where the length and the value range of the input fit the 64 bit
arithmetic of the source (`n * 65 < 2 ^ 64` and `r < 2 ^ 64`), `linearRankSort`
ends with the overflow error exactly when `n * (ceil(log2 r) + 1) > 64`, and a
normal return implies the capacity constraint. -/
theorem linearRankSort_overflow_iff_of_lt (fuel : Nat) (x : Int) (xs : List Int)
    (hn : (xs.length + 1) * 65 < 2 ^ 64)
    (hr : maxElement x xs - minElement x xs + 1 < 2 ^ 64) :
    (linearRankSort true fuel (x :: xs) = Outcome.overflowError ↔
        64 < (xs.length + 1) *
          (Nat.clog 2 (maxElement x xs - minElement x xs + 1).toNat + 1)) ∧
      ∀ seq swaps, linearRankSort true fuel (x :: xs) = Outcome.done seq swaps →
        (xs.length + 1) * (Nat.clog 2 (maxElement x xs - minElement x xs + 1).toNat + 1)
          ≤ 64 := by
  have hle : minElement x xs ≤ maxElement x xs :=
    le_trans (minElement_le x xs) (le_maxElement x xs)
  have h0 : (0 : Int) ≤ maxElement x xs - minElement x xs + 1 := by omega
  have hW : wordMod = 2 ^ 64 := rfl
  have hiff : linearRankSort true fuel (x :: xs) = Outcome.overflowError ↔
        64 < (xs.length + 1) *
          (Nat.clog 2 (maxElement x xs - minElement x xs + 1).toNat + 1) := by
    rw [linearRankSort_eq_overflowError_iff, toT_of_lt _ h0 hr, List.length_cons, hW]
    generalize hR : (maxElement x xs - minElement x xs + 1).toNat = R
    have hR2 : R < 2 ^ 64 := by omega
    have hn2 : (xs.length + 1) % 2 ^ 64 = xs.length + 1 := Nat.mod_eq_of_lt (by omega)
    rw [hn2]
    have hsum : (xs.length + 1 + (R + 2 ^ 64 - (xs.length + 1)) % 2 ^ 64) % 2 ^ 64 = R := by
      omega
    rw [construct_eq_none_iff, overCapacity_initVec, hW, hsum,
      ceilLog2_eq_clog R (le_of_lt hR2)]
    have hb : Nat.clog 2 R ≤ 64 := (Nat.le_pow_iff_clog_le (by decide)).mp (le_of_lt hR2)
    rw [Nat.mod_eq_of_lt (show Nat.clog 2 R + 1 < 2 ^ 64 by omega)]
    have h2 : (xs.length + 1) * (Nat.clog 2 R + 1) ≤ (xs.length + 1) * 65 :=
      Nat.mul_le_mul_left _ (by omega)
    rw [Nat.mod_eq_of_lt (lt_of_le_of_lt h2 hn)]
  refine ⟨hiff, ?_⟩
  intro seq swaps hdone
  by_contra hcap
  have := hiff.mpr (not_le.mp hcap)
  rw [this] at hdone
  exact Outcome.noConfusion hdone

/-! ## The two settings of `calculateMinMax` -/

theorem minElement_mem (x : Int) (xs : List Int) : minElement x xs ∈ x :: xs := by
  unfold minElement
  induction xs generalizing x with
  | nil => simp
  | cons y ys ih =>
    have h := ih (min x y)
    rw [List.foldl_cons]
    rcases List.mem_cons.mp h with h1 | h1
    · rw [h1]
      rcases min_choice x y with h2 | h2 <;> rw [h2] <;> simp
    · exact List.mem_cons_of_mem _ (List.mem_cons_of_mem _ h1)

theorem minElement_le_of_mem (x : Int) (xs : List Int) (y : Int) (hy : y ∈ x :: xs) :
    minElement x xs ≤ y := by
  induction xs generalizing x with
  | nil =>
    rw [List.mem_singleton] at hy
    rw [hy]; exact le_refl _
  | cons z zs ih =>
    have hstep : minElement x (z :: zs) = minElement (min x z) zs := rfl
    rw [hstep]
    rcases List.mem_cons.mp hy with h1 | h1
    · rw [h1]; exact le_trans (minElement_le _ _) (min_le_left x z)
    · rcases List.mem_cons.mp h1 with h2 | h2
      · rw [h2]; exact le_trans (minElement_le _ _) (min_le_right x z)
      · exact ih (min x z) (List.mem_cons_of_mem _ h2)

theorem maxElement_mem (x : Int) (xs : List Int) : maxElement x xs ∈ x :: xs := by
  unfold maxElement
  induction xs generalizing x with
  | nil => simp
  | cons y ys ih =>
    have h := ih (max x y)
    rw [List.foldl_cons]
    rcases List.mem_cons.mp h with h1 | h1
    · rw [h1]
      rcases max_choice x y with h2 | h2 <;> rw [h2] <;> simp
    · exact List.mem_cons_of_mem _ (List.mem_cons_of_mem _ h1)

theorem le_maxElement_of_mem (x : Int) (xs : List Int) (y : Int) (hy : y ∈ x :: xs) :
    y ≤ maxElement x xs := by
  induction xs generalizing x with
  | nil =>
    rw [List.mem_singleton] at hy
    rw [hy]; exact le_refl _
  | cons z zs ih =>
    have hstep : maxElement x (z :: zs) = maxElement (max x z) zs := rfl
    rw [hstep]
    rcases List.mem_cons.mp hy with h1 | h1
    · rw [h1]; exact le_trans (le_max_left x z) (le_maxElement _ _)
    · rcases List.mem_cons.mp h1 with h2 | h2
      · rw [h2]; exact le_trans (le_max_right x z) (le_maxElement _ _)
      · exact ih (max x z) (List.mem_cons_of_mem _ h2)

theorem toT_natCast (n : Nat) : toT (n : Int) = n % 2 ^ 64 := by
  unfold toT
  omega

/-- On a permutation of `0, 1, ..., n-1` the scan of `calculateMinMax = true`
finds `minE = 0` and `r = n`, the values the other setting assumes: the two
settings run the very same computation and end with the same outcome. -/
theorem linearRankSort_zero_based (fuel n : Nat) (seq : List Int)
    (hperm : seq.Perm ((List.range n).map (fun i : Nat => (i : Int)))) :
    linearRankSort false fuel seq = linearRankSort true fuel seq := by
  cases seq with
  | nil => rfl
  | cons x xs =>
    have hlen : xs.length + 1 = n := by
      have := hperm.length_eq
      simpa using this
    have hmem : ∀ y : Int, y ∈ x :: xs ↔ ∃ i : Nat, i < n ∧ (i : Int) = y := by
      intro y
      rw [hperm.mem_iff, List.mem_map]
      simp only [List.mem_range]
    have hmin : minElement x xs = 0 := by
      apply le_antisymm
      · exact minElement_le_of_mem x xs 0 ((hmem 0).mpr ⟨0, by omega, rfl⟩)
      · obtain ⟨i, _, hi⟩ := (hmem _).mp (minElement_mem x xs)
        omega
    have hmax : maxElement x xs = ((n - 1 : Nat) : Int) := by
      apply le_antisymm
      · obtain ⟨i, hi1, hi⟩ := (hmem _).mp (maxElement_mem x xs)
        omega
      · exact le_maxElement_of_mem x xs _ ((hmem _).mpr ⟨n - 1, by omega, rfl⟩)
    have hr : toT (maxElement x xs - minElement x xs + 1) = (x :: xs).length % wordMod := by
      rw [hmax, hmin, List.length_cons, hlen,
        show ((n - 1 : Nat) : Int) - 0 + 1 = (n : Int) by omega, toT_natCast]
      rfl
    rw [linearRankSort_false_cons, linearRankSort_true_cons, hr, hmin]

/-! ## Fields of the packed word -/

theorem pack_testBit (w : Nat) (hw : 0 < w) (vs : List Nat) (hvs : ∀ v ∈ vs, v < 2 ^ w)
    (n : Nat) : (pack w vs).testBit n = (vs.getD (n / w) 0).testBit (n % w) := by
  induction vs generalizing n with
  | nil => simp [pack]
  | cons v vs ih =>
    have hv : v < 2 ^ w := hvs v (List.mem_cons_self _ _)
    have hrest : ∀ u ∈ vs, u < 2 ^ w := fun u hu => hvs u (List.mem_cons_of_mem _ hu)
    rw [pack, Nat.add_comm, Nat.testBit_mul_pow_two_add _ hv]
    by_cases hn : n < w
    · rw [if_pos hn, Nat.div_eq_of_lt hn, Nat.mod_eq_of_lt hn]
      rfl
    · rw [if_neg hn, ih hrest]
      have h1 : n / w = (n - w) / w + 1 := by
        conv_lhs => rw [show n = (n - w) + w by omega]
        rw [Nat.add_div_right _ hw]
      have h2 : n % w = (n - w) % w := by
        conv_lhs => rw [show n = (n - w) + w by omega]
        rw [Nat.add_mod_right]
      rw [h1, h2]
      rfl

theorem pack_lt (w : Nat) (vs : List Nat) (hvs : ∀ v ∈ vs, v < 2 ^ w) :
    pack w vs < 2 ^ (w * vs.length) := by
  induction vs with
  | nil => simp [pack]
  | cons v vs ih =>
    have hv : v < 2 ^ w := hvs v (List.mem_cons_self _ _)
    have hrest := ih (fun u hu => hvs u (List.mem_cons_of_mem _ hu))
    rw [pack, List.length_cons, Nat.mul_succ, Nat.pow_add, Nat.mul_comm (2 ^ (w * vs.length))]
    have : 2 ^ w * (pack w vs + 1) ≤ 2 ^ w * 2 ^ (w * vs.length) :=
      Nat.mul_le_mul_left _ hrest
    rw [Nat.mul_add, Nat.mul_one] at this
    omega

theorem testBit_eq_false_of_lt_of_le (x i j : Nat) (hx : x < 2 ^ i) (hij : i ≤ j) :
    x.testBit j = false :=
  Nat.testBit_lt_two_pow (lt_of_lt_of_le hx (Nat.pow_le_pow_right (by decide) hij))

theorem getD_set (l : List Nat) (i j a : Nat) :
    (l.set i a).getD j 0 = if i = j ∧ i < l.length then a else l.getD j 0 := by
  induction l generalizing i j with
  | nil =>
    rw [List.set_nil, if_neg (fun hc => Nat.not_lt_zero _ hc.2)]
  | cons x xs ih =>
    cases i with
    | zero =>
      cases j with
      | zero => rw [List.set_cons_zero, List.getD_cons_zero, if_pos ⟨rfl, Nat.succ_pos _⟩]
      | succ j =>
        rw [List.set_cons_zero, List.getD_cons_succ, List.getD_cons_succ,
          if_neg (fun hc => Nat.succ_ne_zero j hc.1.symm)]
    | succ i =>
      cases j with
      | zero =>
        rw [List.set_cons_succ, List.getD_cons_zero, List.getD_cons_zero,
          if_neg (fun hc => Nat.succ_ne_zero i hc.1)]
      | succ j =>
        rw [List.set_cons_succ, List.getD_cons_succ, List.getD_cons_succ, ih]
        by_cases hc : i = j ∧ i < xs.length
        · rw [if_pos hc, if_pos ⟨congrArg Nat.succ hc.1, Nat.succ_lt_succ hc.2⟩]
        · rw [if_neg hc, if_neg (fun hd => hc ⟨Nat.succ.inj hd.1, Nat.lt_of_succ_lt_succ hd.2⟩)]

theorem mem_set_getD (l : List Nat) (i a x : Nat) (hx : x ∈ l.set i a) :
    x = a ∨ x ∈ l := by
  rcases List.mem_or_eq_of_mem_set hx with h | h
  · exact Or.inr h
  · exact Or.inl h

theorem getD_lt (l : List Nat) (m i : Nat) (hm : 0 < m) (hl : ∀ x ∈ l, x < m) :
    l.getD i 0 < m := by
  by_cases hi : i < l.length
  · rw [List.getD_eq_getElem _ _ hi]; exact hl _ (List.getElem_mem _)
  · rw [List.getD_eq_default _ _ (not_lt.mp hi)]; exact hm

theorem Packed.offset_eq {v : ConstTimeRankVec} {vals : List Nat} (h : Packed v vals)
    (i : Nat) (hi : i ≤ v.k) : v.offset i = (v.b + 1) * i := by
  have hW : wordMod = 2 ^ 64 := rfl
  have h1 := h.width
  have h2 : (v.b + 1) * i ≤ v.k * (v.b + 1) := by
    rw [Nat.mul_comm]; exact Nat.mul_le_mul_right _ hi
  have h3 := h.fits
  unfold ConstTimeRankVec.offset
  rw [hW, Nat.mod_eq_of_lt (show v.b + 1 < 2 ^ 64 by omega),
    Nat.mod_eq_of_lt (show (v.b + 1) * i < 2 ^ 64 by omega)]

theorem Packed.get_eq {v : ConstTimeRankVec} {vals : List Nat} (h : Packed v vals)
    (i : Nat) (hi : i < v.k) : v.get i = vals.getD i 0 := by
  have hw : 0 < v.b + 1 := Nat.succ_pos _
  unfold ConstTimeRankVec.get
  rw [h.offset_eq i (le_of_lt hi), h.mask, Nat.and_pow_two_sub_one_eq_mod, h.data]
  apply Nat.eq_of_testBit_eq
  intro n
  rw [Nat.testBit_mod_two_pow, Nat.testBit_shiftRight, pack_testBit _ hw _ h.small]
  by_cases hn : n < v.b + 1
  · have h1 : ((v.b + 1) * i + n) / (v.b + 1) = i := by
      rw [Nat.mul_add_div hw, Nat.div_eq_of_lt hn, Nat.add_zero]
    have h2 : ((v.b + 1) * i + n) % (v.b + 1) = n := by
      rw [Nat.mul_add_mod, Nat.mod_eq_of_lt hn]
    rw [h1, h2]; simp [hn]
  · have h3 : (vals.getD i 0).testBit n = false :=
      testBit_eq_false_of_lt_of_le _ _ _
        (getD_lt vals _ i (Nat.two_pow_pos _) h.small) (not_lt.mp hn)
    rw [h3]; simp [hn]

theorem Packed.set_packed {v : ConstTimeRankVec} {vals : List Nat} (h : Packed v vals)
    (i e : Nat) (hi : i < v.k) (he : e < 2 ^ (v.b + 1)) :
    Packed (v.set i e) (vals.set i (vals.getD i 0 ^^^ e)) := by
  have hw : 0 < v.b + 1 := Nat.succ_pos _
  have hW : wordMod = 2 ^ 64 := rfl
  have hsmall : ∀ x ∈ vals.set i (vals.getD i 0 ^^^ e), x < 2 ^ (v.b + 1) := by
    intro x hx
    rcases mem_set_getD _ _ _ _ hx with h1 | h1
    · rw [h1]
      exact Nat.xor_lt_two_pow (getD_lt vals _ i (Nat.two_pow_pos _) h.small) he
    · exact h.small x h1
  have hshift : (e <<< ((v.b + 1) * i)) % 2 ^ 64 = e <<< ((v.b + 1) * i) := by
    apply Nat.mod_eq_of_lt
    rw [Nat.shiftLeft_eq]
    have h1 : (v.b + 1) * i + (v.b + 1) ≤ 64 := by
      have := h.fits
      have h2 : (v.b + 1) * (i + 1) ≤ (v.b + 1) * v.k := Nat.mul_le_mul_left _ hi
      rw [Nat.mul_succ] at h2
      rw [Nat.mul_comm (v.b + 1) v.k] at h2
      omega
    calc e * 2 ^ ((v.b + 1) * i) < 2 ^ (v.b + 1) * 2 ^ ((v.b + 1) * i) :=
          Nat.mul_lt_mul_of_pos_right he (Nat.two_pow_pos _)
      _ = 2 ^ ((v.b + 1) * i + (v.b + 1)) := by rw [← Nat.pow_add, Nat.add_comm]
      _ ≤ 2 ^ 64 := Nat.pow_le_pow_right (by decide) h1
  refine
    { width := h.width, mask := h.mask, size := ?_, fits := h.fits,
      small := hsmall, data := ?_ }
  · rw [List.length_set]; exact h.size
  · show v.data ^^^ ((e <<< v.offset i) % wordMod)
      = pack (v.b + 1) (vals.set i (vals.getD i 0 ^^^ e))
    rw [h.offset_eq i (le_of_lt hi), hW, hshift, h.data]
    apply Nat.eq_of_testBit_eq
    intro n
    rw [Nat.testBit_xor, Nat.testBit_shiftLeft, pack_testBit _ hw _ h.small,
      pack_testBit _ hw _ hsmall, getD_set]
    have hilen : i < vals.length := by rw [h.size]; exact hi
    by_cases hq : i = n / (v.b + 1)
    · have hge : (v.b + 1) * i ≤ n := by rw [hq]; exact Nat.mul_div_le n _
      have hsub : n - (v.b + 1) * i = n % (v.b + 1) := by
        have := Nat.div_add_mod n (v.b + 1)
        rw [← hq] at this
        omega
      rw [if_pos ⟨hq, hilen⟩, Nat.testBit_xor, hsub, ← hq]
      simp [hge]
    · rw [if_neg (fun hc => hq hc.1)]
      by_cases hge : (v.b + 1) * i ≤ n
      · have hbig : v.b + 1 ≤ n - (v.b + 1) * i := by
          by_contra hlt
          apply hq
          have h5 : n = (v.b + 1) * i + (n - (v.b + 1) * i) := by omega
          rw [h5, Nat.mul_add_div hw, Nat.div_eq_of_lt (not_le.mp hlt), Nat.add_zero]
        rw [testBit_eq_false_of_lt_of_le e _ _ he hbig]
        simp
      · simp [hge]

theorem Packed.swap_packed {v : ConstTimeRankVec} {vals : List Nat} (h : Packed v vals)
    (i j : Nat) (hi : i < v.k) (hj : j < v.k) :
    Packed (v.swap i j) (swapAt vals i j) := by
  have hli : vals.getD i 0 < 2 ^ (v.b + 1) := getD_lt vals _ i (Nat.two_pow_pos _) h.small
  have hlj : vals.getD j 0 < 2 ^ (v.b + 1) := getD_lt vals _ j (Nat.two_pow_pos _) h.small
  have htmp : vals.getD i 0 ^^^ vals.getD j 0 < 2 ^ (v.b + 1) := Nat.xor_lt_two_pow hli hlj
  have h1 := h.set_packed i (vals.getD i 0 ^^^ vals.getD j 0) hi htmp
  rw [Nat.xor_cancel_left] at h1
  have hj1 : j < (v.set i (vals.getD i 0 ^^^ vals.getD j 0)).k := hj
  have h2 := h1.set_packed j (vals.getD i 0 ^^^ vals.getD j 0) hj1 htmp
  have hval : (vals.set i (vals.getD j 0)).getD j 0 ^^^ (vals.getD i 0 ^^^ vals.getD j 0)
      = vals.getD i 0 := by
    rw [getD_set]
    by_cases hc : i = j ∧ i < vals.length
    · rw [if_pos hc, hc.1, Nat.xor_comm, Nat.xor_assoc, Nat.xor_self, Nat.xor_zero]
    · rw [if_neg hc, Nat.xor_comm, Nat.xor_assoc, Nat.xor_self, Nat.xor_zero]
  rw [hval] at h2
  have hswap : v.swap i j
      = (v.set i (vals.getD i 0 ^^^ vals.getD j 0)).set j (vals.getD i 0 ^^^ vals.getD j 0) := by
    unfold ConstTimeRankVec.swap
    rw [h.get_eq i hi, h.get_eq j hj]
  rw [hswap]
  exact h2

theorem set_b (v : ConstTimeRankVec) (i e : Nat) : (v.set i e).b = v.b := rfl
theorem set_k (v : ConstTimeRankVec) (i e : Nat) : (v.set i e).k = v.k := rfl
theorem set_mul (v : ConstTimeRankVec) (i e : Nat) : (v.set i e).mul = v.mul := rfl
theorem set_bMod (v : ConstTimeRankVec) (i e : Nat) : (v.set i e).bMod = v.bMod := rfl
theorem swap_b (v : ConstTimeRankVec) (i j : Nat) : (v.swap i j).b = v.b := rfl
theorem swap_k (v : ConstTimeRankVec) (i j : Nat) : (v.swap i j).k = v.k := rfl
theorem swap_mul (v : ConstTimeRankVec) (i j : Nat) : (v.swap i j).mul = v.mul := rfl
theorem swap_bMod (v : ConstTimeRankVec) (i j : Nat) : (v.swap i j).bMod = v.bMod := rfl

theorem Holds.swap_holds {v : ConstTimeRankVec} {vals : List Nat} (h : Holds v vals)
    (i j : Nat) (hi : i < v.k) (hj : j < v.k) :
    Holds (v.swap i j) (swapAt vals i j) :=
  { packed := h.packed.swap_packed i j hi hj, count := h.count, ones := h.ones }

theorem getD_swapAt (vals : List Nat) (i j m : Nat) (hi : i < vals.length)
    (hj : j < vals.length) :
    (swapAt vals i j).getD m 0 =
      if m = j then vals.getD i 0 else if m = i then vals.getD j 0 else vals.getD m 0 := by
  unfold swapAt
  rw [getD_set, getD_set, List.length_set]
  by_cases h1 : m = j
  · rw [if_pos ⟨h1.symm, hj⟩, if_pos h1]
  · rw [if_neg (fun hc => h1 hc.1.symm), if_neg h1]
    by_cases h2 : m = i
    · rw [if_pos ⟨h2.symm, hi⟩, if_pos h2]
    · rw [if_neg (fun hc => h2 hc.1.symm), if_neg h2]

/-! ## The constructors -/

theorem toT_shlInt (s : Nat) (hs : s ≤ 30) : toT (shlInt s) = 2 ^ s := by
  interval_cases s <;> rfl

theorem pack_replicate_zero (w k : Nat) : pack w (List.replicate k 0) = 0 := by
  induction k with
  | zero => rfl
  | succ k ih => rw [List.replicate_succ, pack, ih, Nat.mul_zero]

theorem assignFrom_b (es : List Nat) (i : Nat) (v : ConstTimeRankVec) :
    (ConstTimeRankVec.assignFrom i es v).b = v.b ∧ (ConstTimeRankVec.assignFrom i es v).k = v.k ∧
      (ConstTimeRankVec.assignFrom i es v).mul = v.mul ∧
      (ConstTimeRankVec.assignFrom i es v).bMod = v.bMod := by
  induction es generalizing i v with
  | nil => exact ⟨rfl, rfl, rfl, rfl⟩
  | cons e es ih =>
    rw [ConstTimeRankVec.assignFrom]
    exact ih _ _

theorem Packed.k_le {v : ConstTimeRankVec} {vals : List Nat} (h : Packed v vals) : v.k ≤ 64 := by
  have h1 := h.fits
  have h2 : v.k * 1 ≤ v.k * (v.b + 1) := Nat.mul_le_mul_left _ (Nat.succ_pos _)
  omega

theorem assignFrom_packed (es pre : List Nat) (v : ConstTimeRankVec)
    (h : Packed v (pre ++ List.replicate es.length 0))
    (hes : ∀ e ∈ es, e < 2 ^ (v.b + 1)) :
    Packed (ConstTimeRankVec.assignFrom pre.length es v) (pre ++ es) := by
  induction es generalizing pre v with
  | nil =>
    rw [ConstTimeRankVec.assignFrom]
    simpa using h
  | cons e es ih =>
    have hk := h.k_le
    have hsize := h.size
    rw [List.length_append, List.length_replicate, List.length_cons] at hsize
    have hidx : pre.length < v.k := by omega
    have hset := h.set_packed pre.length e hidx (hes e (List.mem_cons_self _ _))
    have hget : (pre ++ List.replicate (e :: es).length 0).getD pre.length 0 = 0 := by
      rw [List.getD_append_right _ _ _ _ (le_refl _), Nat.sub_self, List.length_cons,
        List.replicate_succ, List.getD_cons_zero]
    have hlist : (pre ++ List.replicate (e :: es).length 0).set pre.length e
        = (pre ++ [e]) ++ List.replicate es.length 0 := by
      rw [List.set_append_right _ _ (le_refl _), Nat.sub_self, List.length_cons,
        List.replicate_succ, List.set_cons_zero, List.append_assoc, List.singleton_append]
    rw [hget, Nat.zero_xor, hlist] at hset
    have hnext : (pre.length + 1) % wordMod = (pre ++ [e]).length := by
      have hW : wordMod = 2 ^ 64 := rfl
      rw [List.length_append, List.length_singleton, hW]
      exact Nat.mod_eq_of_lt (by omega)
    rw [ConstTimeRankVec.assignFrom, hnext, show pre ++ e :: es = (pre ++ [e]) ++ es by simp]
    exact ih (pre ++ [e]) _ hset (fun x hx => hes x (List.mem_cons_of_mem _ hx))

theorem fillOnes_eq_assignFrom (n i : Nat) (v : ConstTimeRankVec) (h : i + n < 2 ^ 64) :
    ConstTimeRankVec.fillOnes n i v = ConstTimeRankVec.assignFrom i (List.replicate n 1) v := by
  induction n generalizing i v with
  | zero => rfl
  | succ n ih =>
    have hW : wordMod = 2 ^ 64 := rfl
    rw [ConstTimeRankVec.fillOnes, List.replicate_succ, ConstTimeRankVec.assignFrom, hW,
      Nat.mod_eq_of_lt (show i + 1 < 2 ^ 64 by omega)]
    exact ih (i + 1) _ (by omega)

theorem initVec_packed (k other : Nat)
    (hb : ceilLog2 ((k + other) % wordMod) + 1 ≤ 30)
    (hfit : k * (ceilLog2 ((k + other) % wordMod) + 1) ≤ 64) :
    Packed (initVec k other) (List.replicate k 0) := by
  have hW : wordMod = 2 ^ 64 := rfl
  refine
    { width := hb, mask := ?_, size := List.length_replicate _ _, fits := hfit,
      small := ?_, data := ?_ }
  · show (toT (shlInt ((ceilLog2 ((k + other) % wordMod) + 1) % wordMod)) + wordMod - 1)
        % wordMod = 2 ^ (ceilLog2 ((k + other) % wordMod) + 1) - 1
    generalize ceilLog2 ((k + other) % wordMod) = b at hb
    rw [hW, Nat.mod_eq_of_lt (show b + 1 < 2 ^ 64 by omega), toT_shlInt _ hb]
    have h1 : 0 < 2 ^ (b + 1) := Nat.two_pow_pos _
    have h2 : 2 ^ (b + 1) ≤ 2 ^ 30 := Nat.pow_le_pow_right (by decide) hb
    have h3 : 2 ^ (b + 1) + 2 ^ 64 - 1 = 2 ^ 64 + (2 ^ (b + 1) - 1) := by omega
    rw [h3, Nat.add_mod_left]
    exact Nat.mod_eq_of_lt (by omega)
  · intro x hx
    rw [List.eq_of_mem_replicate hx]
    exact Nat.two_pow_pos _
  · show 0 = _
    rw [pack_replicate_zero]

theorem construct_of_not_overCapacity (k other : Nat)
    (h : overCapacity (initVec k other) = false) :
    construct k other = some { ConstTimeRankVec.fillOnes k 0 (initVec k other) with
      data := (ConstTimeRankVec.fillOnes k 0 (initVec k other)).mul,
      mul := (ConstTimeRankVec.fillOnes k 0 (initVec k other)).data } := by
  simp only [construct, h, Bool.false_eq_true, if_false]

theorem construct_holds (k other : Nat) (v : ConstTimeRankVec)
    (hc : construct k other = some v)
    (hb : ceilLog2 ((k + other) % wordMod) + 1 ≤ 30)
    (hk : k ≤ 2 ^ ceilLog2 ((k + other) % wordMod)) :
    Holds v (List.replicate k 0) ∧ v.b = ceilLog2 ((k + other) % wordMod) ∧ v.k = k := by
  have hW : wordMod = 2 ^ 64 := rfl
  have hnone : ¬ construct k other = none := by rw [hc]; exact Option.some_ne_none v
  rw [construct_eq_none_iff, overCapacity_initVec] at hnone
  have hfit : k * (ceilLog2 ((k + other) % wordMod) + 1) ≤ 64 := by
    have haux : ∀ B : Nat, B + 1 ≤ 30 → k ≤ 2 ^ B →
        ¬ 64 < k * ((B + 1) % wordMod) % wordMod → k * (B + 1) ≤ 64 := by
      intro B h1 h2 h3
      have hk2 : k ≤ 2 ^ 29 := le_trans h2 (Nat.pow_le_pow_right (by decide) (by omega))
      have hprod : k * (B + 1) ≤ 2 ^ 29 * 30 := Nat.mul_le_mul hk2 h1
      rw [hW, Nat.mod_eq_of_lt (show B + 1 < 2 ^ 64 by omega),
        Nat.mod_eq_of_lt (show k * (B + 1) < 2 ^ 64 by omega)] at h3
      omega
    exact haux _ hb hk hnone
  have hinit := initVec_packed k other hb hfit
  have hk64 : k ≤ 64 := hinit.k_le
  have hfill : Packed (ConstTimeRankVec.fillOnes k 0 (initVec k other)) (List.replicate k 1) := by
    rw [fillOnes_eq_assignFrom k 0 _ (by omega)]
    have := assignFrom_packed (List.replicate k 1) [] (initVec k other)
      (by rw [List.length_replicate]; exact hinit)
      (fun e he => by
        rw [List.eq_of_mem_replicate he]
        exact Nat.one_lt_two_pow (Nat.succ_ne_zero _))
    exact this
  have hparts := assignFrom_b (List.replicate k 1) 0 (initVec k other)
  rw [← fillOnes_eq_assignFrom k 0 _ (by omega)] at hparts
  have hv : v = { ConstTimeRankVec.fillOnes k 0 (initVec k other) with
      data := (ConstTimeRankVec.fillOnes k 0 (initVec k other)).mul,
      mul := (ConstTimeRankVec.fillOnes k 0 (initVec k other)).data } := by
    have hcap : overCapacity (initVec k other) = false := by
      cases hcase : overCapacity (initVec k other) with
      | false => rfl
      | true =>
        exact absurd ((construct_eq_none_iff k other).mpr hcase) (by rw [hc]; exact Option.some_ne_none v)
    rw [construct_of_not_overCapacity k other hcap] at hc
    exact (Option.some.inj hc).symm
  rw [hv]
  refine ⟨{ packed := ?_, count := ?_, ones := ?_ }, hparts.1, hparts.2.1⟩
  · refine
      { width := ?_, mask := ?_, size := ?_, fits := ?_, small := ?_, data := ?_ }
    · show (ConstTimeRankVec.fillOnes k 0 (initVec k other)).b + 1 ≤ 30
      exact hfill.width
    · exact hfill.mask
    · show (List.replicate k 0).length = (ConstTimeRankVec.fillOnes k 0 (initVec k other)).k
      rw [List.length_replicate, hparts.2.1]; rfl
    · exact hfill.fits
    · intro x hx
      rw [List.eq_of_mem_replicate hx]
      exact Nat.two_pow_pos _
    · show (ConstTimeRankVec.fillOnes k 0 (initVec k other)).mul = _
      rw [hparts.2.2.1, pack_replicate_zero]; rfl
  · show (ConstTimeRankVec.fillOnes k 0 (initVec k other)).k
        ≤ 2 ^ (ConstTimeRankVec.fillOnes k 0 (initVec k other)).b
    rw [hparts.1, hparts.2.1]; exact hk
  · show (ConstTimeRankVec.fillOnes k 0 (initVec k other)).data
        = pack ((ConstTimeRankVec.fillOnes k 0 (initVec k other)).b + 1)
          (List.replicate (ConstTimeRankVec.fillOnes k 0 (initVec k other)).k 1)
    rw [hfill.data, hparts.2.1]; rfl

theorem constructFrom_holds (elems : List Nat) (other b : Nat) (v : ConstTimeRankVec)
    (hc : constructFrom elems other = some v) (hlt : elems.length < 2 ^ 64)
    (hbdef : ceilLog2 ((elems.length + other) % wordMod) = b) (hb : b + 1 ≤ 30)
    (hlen : elems.length ≤ 2 ^ b) (hsmall : ∀ e ∈ elems, e < 2 ^ (b + 1)) :
    Holds v elems ∧ v.b = b ∧ v.k = elems.length := by
  have hW : wordMod = 2 ^ 64 := rfl
  have hmod : elems.length % wordMod = elems.length := by
    rw [hW]; exact Nat.mod_eq_of_lt hlt
  unfold constructFrom at hc
  rw [hmod] at hc
  cases hcon : construct elems.length other with
  | none => rw [hcon] at hc; exact Option.noConfusion hc
  | some v0 =>
    rw [hcon] at hc
    have hv : v = v0.assign elems := (Option.some.inj hc).symm
    have h0 := construct_holds elems.length other v0 hcon (by rw [hbdef]; exact hb)
      (by rw [hbdef]; exact hlen)
    rw [hbdef] at h0
    obtain ⟨hh, hb0, hk0⟩ := h0
    have hparts := assignFrom_b elems 0 v0
    have hp : Packed (ConstTimeRankVec.assignFrom 0 elems v0) elems := by
      have := assignFrom_packed elems [] v0 (by simpa using hh.packed)
        (by rw [hb0]; exact hsmall)
      simpa using this
    rw [hv]
    unfold ConstTimeRankVec.assign
    refine ⟨{ packed := hp, count := ?_, ones := ?_ }, ?_, ?_⟩
    · rw [hparts.1, hparts.2.1]; exact hh.count
    · rw [hparts.1, hparts.2.1, hparts.2.2.1]; exact hh.ones
    · rw [hparts.1]; exact hb0
    · rw [hparts.2.1]; exact hk0

/-- The constructor with `b + 1 ≤ 30` and `k * (b + 1) ≤ 64` (no assumption on
`k ≤ 2 ^ b`): every slot holds `0` and `mul` has a `1` in every field. -/
theorem construct_packed (k other : Nat) (v : ConstTimeRankVec)
    (hc : construct k other = some v)
    (hb : ceilLog2 ((k + other) % wordMod) + 1 ≤ 30)
    (hfit : k * (ceilLog2 ((k + other) % wordMod) + 1) ≤ 64) :
    Packed v (List.replicate k 0) ∧ v.b = ceilLog2 ((k + other) % wordMod) ∧ v.k = k ∧
      v.mul = pack (v.b + 1) (List.replicate k 1) := by
  have hinit := initVec_packed k other hb hfit
  have hk64 : k ≤ 64 := hinit.k_le
  have hfill : Packed (ConstTimeRankVec.fillOnes k 0 (initVec k other)) (List.replicate k 1) := by
    rw [fillOnes_eq_assignFrom k 0 _ (by omega)]
    have := assignFrom_packed (List.replicate k 1) [] (initVec k other)
      (by rw [List.length_replicate]; exact hinit)
      (fun e he => by
        rw [List.eq_of_mem_replicate he]
        exact Nat.one_lt_two_pow (Nat.succ_ne_zero _))
    exact this
  have hparts := assignFrom_b (List.replicate k 1) 0 (initVec k other)
  rw [← fillOnes_eq_assignFrom k 0 _ (by omega)] at hparts
  have hv : v = { ConstTimeRankVec.fillOnes k 0 (initVec k other) with
      data := (ConstTimeRankVec.fillOnes k 0 (initVec k other)).mul,
      mul := (ConstTimeRankVec.fillOnes k 0 (initVec k other)).data } := by
    have hcap : overCapacity (initVec k other) = false := by
      cases hcase : overCapacity (initVec k other) with
      | false => rfl
      | true =>
        exact absurd ((construct_eq_none_iff k other).mpr hcase) (by rw [hc]; exact Option.some_ne_none v)
    rw [construct_of_not_overCapacity k other hcap] at hc
    exact (Option.some.inj hc).symm
  rw [hv]
  refine ⟨?_, hparts.1, hparts.2.1, ?_⟩
  · refine
      { width := ?_, mask := ?_, size := ?_, fits := ?_, small := ?_, data := ?_ }
    · show (ConstTimeRankVec.fillOnes k 0 (initVec k other)).b + 1 ≤ 30
      exact hfill.width
    · exact hfill.mask
    · show (List.replicate k 0).length = (ConstTimeRankVec.fillOnes k 0 (initVec k other)).k
      rw [List.length_replicate, hparts.2.1]; rfl
    · exact hfill.fits
    · intro x hx
      rw [List.eq_of_mem_replicate hx]
      exact Nat.two_pow_pos _
    · show (ConstTimeRankVec.fillOnes k 0 (initVec k other)).mul = _
      rw [hparts.2.2.1, pack_replicate_zero]; rfl
  · show (ConstTimeRankVec.fillOnes k 0 (initVec k other)).data
        = pack ((ConstTimeRankVec.fillOnes k 0 (initVec k other)).b + 1) (List.replicate k 1)
    rw [hfill.data]

/-- Construction from a list of values below `2 ^ (b+1)` with `b + 1 ≤ 30` and
`k * (b + 1) ≤ 64`: the slots hold the values in order, and `mul` is the one
of the constructor `ConstTimeRankVec(k, other)`, untouched by `assign`. -/
theorem constructFrom_packed (elems : List Nat) (other b : Nat) (v : ConstTimeRankVec)
    (hc : constructFrom elems other = some v) (hlt : elems.length < 2 ^ 64)
    (hbdef : ceilLog2 ((elems.length + other) % wordMod) = b) (hb : b + 1 ≤ 30)
    (hfit : elems.length * (b + 1) ≤ 64) (hsmall : ∀ e ∈ elems, e < 2 ^ (b + 1)) :
    Packed v elems ∧ v.b = b ∧ v.k = elems.length ∧
      v.mul = pack (b + 1) (List.replicate elems.length 1) ∧
      ∃ v0, construct elems.length other = some v0 ∧ v.mul = v0.mul := by
  have hW : wordMod = 2 ^ 64 := rfl
  have hmod : elems.length % wordMod = elems.length := by
    rw [hW]; exact Nat.mod_eq_of_lt hlt
  unfold constructFrom at hc
  rw [hmod] at hc
  cases hcon : construct elems.length other with
  | none => rw [hcon] at hc; exact Option.noConfusion hc
  | some v0 =>
    rw [hcon] at hc
    have hv : v = v0.assign elems := (Option.some.inj hc).symm
    have h0 := construct_packed elems.length other v0 hcon (by rw [hbdef]; exact hb)
      (by rw [hbdef]; exact hfit)
    rw [hbdef] at h0
    obtain ⟨hh, hb0, hk0, hmul0⟩ := h0
    have hparts := assignFrom_b elems 0 v0
    have hp : Packed (ConstTimeRankVec.assignFrom 0 elems v0) elems := by
      have := assignFrom_packed elems [] v0 (by simpa using hh)
        (by rw [hb0]; exact hsmall)
      simpa using this
    rw [hv]
    unfold ConstTimeRankVec.assign
    refine ⟨hp, ?_, ?_, ?_, v0, rfl, ?_⟩
    · rw [hparts.1]; exact hb0
    · rw [hparts.2.1]; exact hk0
    · rw [hparts.2.2.1, hmul0, hb0]
    · exact hparts.2.2.1
theorem pack_mul_replicate (w c k : Nat) :
    c * pack w (List.replicate k 1) = pack w (List.replicate k c) := by
  induction k with
  | zero => simp [pack]
  | succ k ih =>
    rw [List.replicate_succ, List.replicate_succ, pack, pack, Nat.mul_add, Nat.mul_one,
      ← ih, Nat.mul_left_comm]

theorem pack_sub_add (w c : Nat) (vals : List Nat) (hle : ∀ x ∈ vals, x ≤ c) :
    pack w (vals.map (fun x => c - x)) + pack w vals
      = pack w (List.replicate vals.length c) := by
  induction vals with
  | nil => rfl
  | cons x xs ih =>
    have hx : x ≤ c := hle x (List.mem_cons_self _ _)
    have h := ih (fun y hy => hle y (List.mem_cons_of_mem _ hy))
    rw [List.map_cons, List.length_cons, List.replicate_succ, pack, pack, pack, ← h,
      Nat.mul_add]
    omega

theorem testBit_top (d b : Nat) (hd : d < 2 ^ (b + 1)) :
    d.testBit b = decide (2 ^ b ≤ d) := by
  rw [Nat.testBit_to_div_mod]
  have hpos : 0 < 2 ^ b := Nat.two_pow_pos b
  have hlt : d / 2 ^ b < 2 := by
    rw [Nat.div_lt_iff_lt_mul hpos, Nat.mul_comm, ← Nat.pow_succ]
    exact hd
  by_cases hge : 2 ^ b ≤ d
  · have : d / 2 ^ b = 1 := by
      have h1 : 0 < d / 2 ^ b := Nat.div_pos hge hpos
      omega
    simp [this, hge]
  · have : d / 2 ^ b = 0 := Nat.div_eq_of_lt (not_le.mp hge)
    simp [this, hge]

theorem pack_mod (w : Nat) (cs : List Nat) :
    pack w cs % (2 ^ w - 1) = cs.sum % (2 ^ w - 1) := by
  induction cs with
  | nil => rfl
  | cons c cs ih =>
    have hpos : 0 < 2 ^ w := Nat.two_pow_pos w
    have h1 : 2 ^ w * pack w cs = (2 ^ w - 1) * pack w cs + pack w cs := by
      conv_lhs => rw [show 2 ^ w = (2 ^ w - 1) + 1 by omega]
      rw [Nat.add_mul, Nat.one_mul]
    rw [pack, List.sum_cons, h1, ← Nat.add_assoc, Nat.add_comm c, Nat.add_assoc,
      Nat.mul_add_mod, Nat.add_mod, ih, ← Nat.add_mod]

theorem sum_indicator (g : Nat) (vals : List Nat) :
    (vals.map (fun x => if x ≤ g then 1 else 0)).sum = vals.countP (fun x => decide (x ≤ g)) := by
  induction vals with
  | nil => rfl
  | cons x xs ih =>
    rw [List.map_cons, List.sum_cons, List.countP_cons, ih, Nat.add_comm]
    by_cases h : x ≤ g <;> simp [h]

/-! ## The rank formula -/

theorem testBit_le_one (x m : Nat) (hx : x ≤ 1) (hm : m ≠ 0) : x.testBit m = false :=
  testBit_eq_false_of_lt_of_le x 1 m (by omega) (by omega)

theorem carries_and_ones (b k g : Nat) (vals : List Nat) (hlen : vals.length ≤ k)
    (hvals : ∀ x ∈ vals, x < 2 ^ b) (hg : g < 2 ^ b) :
    (pack (b + 1) (vals.map (fun x => g + 2 ^ b - x)) >>> b) &&& pack (b + 1) (List.replicate k 1)
      = pack (b + 1) (vals.map (fun x => if x ≤ g then 1 else 0)) := by
  have hw : 0 < b + 1 := Nat.succ_pos b
  have hpow : 2 ^ (b + 1) = 2 * 2 ^ b := by rw [Nat.pow_succ, Nat.mul_comm]
  have hds : ∀ d ∈ vals.map (fun x => g + 2 ^ b - x), d < 2 ^ (b + 1) := by
    intro d hd
    obtain ⟨x, _, hx⟩ := List.mem_map.mp hd
    omega
  have hones : ∀ d ∈ List.replicate k 1, d < 2 ^ (b + 1) := by
    intro d hd
    rw [List.eq_of_mem_replicate hd]
    exact Nat.one_lt_two_pow (Nat.succ_ne_zero b)
  have hcs : ∀ d ∈ vals.map (fun x => if x ≤ g then 1 else 0), d < 2 ^ (b + 1) := by
    intro d hd
    obtain ⟨x, _, hx⟩ := List.mem_map.mp hd
    have h1 : 1 < 2 ^ (b + 1) := Nat.one_lt_two_pow (Nat.succ_ne_zero b)
    by_cases hxg : x ≤ g
    · rw [if_pos hxg] at hx; omega
    · rw [if_neg hxg] at hx; omega
  apply Nat.eq_of_testBit_eq
  intro n
  rw [Nat.testBit_and, Nat.testBit_shiftRight, pack_testBit _ hw _ hds,
    pack_testBit _ hw _ hones, pack_testBit _ hw _ hcs]
  simp only [List.getD_eq_getElem?_getD, List.getElem?_map]
  by_cases hm : n % (b + 1) = 0
  · have hn : n = (b + 1) * (n / (b + 1)) := by
      have := Nat.div_add_mod n (b + 1)
      omega
    have hdiv : (b + n) / (b + 1) = n / (b + 1) := by
      conv_lhs => rw [hn, Nat.add_comm, Nat.mul_add_div hw, Nat.div_eq_of_lt (Nat.lt_succ_self b),
        Nat.add_zero]
    have hmod : (b + n) % (b + 1) = b := by
      conv_lhs => rw [hn, Nat.add_comm, Nat.mul_add_mod, Nat.mod_eq_of_lt (Nat.lt_succ_self b)]
    rw [hdiv, hmod, hm]
    cases hv : vals[n / (b + 1)]? with
    | none => simp
    | some x =>
      have hjlt : n / (b + 1) < k := by
        by_contra hge
        rw [List.getElem?_eq_none (le_trans hlen (not_lt.mp hge))] at hv
        exact Option.noConfusion hv
      have hxmem : x ∈ vals := by
        obtain ⟨hlt, hx⟩ := List.getElem?_eq_some_iff.mp hv
        rw [← hx]; exact List.getElem_mem _
      have hx := hvals x hxmem
      have hone : (List.replicate k 1)[n / (b + 1)]? = some 1 := by
        rw [List.getElem?_replicate, if_pos hjlt]
      rw [hone]
      simp only [Option.map_some', Option.getD_some]
      rw [testBit_top _ b (by omega)]
      by_cases hxg : x ≤ g
      · have : 2 ^ b ≤ g + 2 ^ b - x := by omega
        simp [hxg, this]
      · have : ¬ 2 ^ b ≤ g + 2 ^ b - x := by omega
        simp [hxg, this]
  · have h1 : ((List.replicate k 1)[n / (b + 1)]?.getD 0).testBit (n % (b + 1)) = false := by
      apply testBit_le_one _ _ _ hm
      rw [List.getElem?_replicate]
      by_cases hj : n / (b + 1) < k
      · rw [if_pos hj]; exact le_refl 1
      · rw [if_neg hj]; exact Nat.zero_le 1
    have h2 : ((Option.map (fun x => if x ≤ g then 1 else 0) vals[n / (b + 1)]?).getD 0).testBit
        (n % (b + 1)) = false := by
      apply testBit_le_one _ _ _ hm
      cases vals[n / (b + 1)]? with
      | none => exact Nat.zero_le 1
      | some x =>
        simp only [Option.map_some', Option.getD_some]
        by_cases hxg : x ≤ g
        · rw [if_pos hxg]
        · rw [if_neg hxg]; exact Nat.zero_le 1
    rw [h1, h2, Bool.and_false]

theorem Holds.carries_eq {v : ConstTimeRankVec} {vals : List Nat} (h : Holds v vals)
    (hvals : ∀ x ∈ vals, x < 2 ^ v.b) (i : Nat) (hi : i < v.k) :
    v.carries i
      = pack (v.b + 1) (vals.map (fun x => vals.getD i 0 + 2 ^ v.b - x)) >>> v.b := by
  have hW : wordMod = 2 ^ 64 := rfl
  have hwidth := h.packed.width
  have hpow : 2 ^ (v.b + 1) = 2 * 2 ^ v.b := by rw [Nat.pow_succ, Nat.mul_comm]
  have hg : vals.getD i 0 < 2 ^ v.b := getD_lt vals _ i (Nat.two_pow_pos _) hvals
  have h30 : 2 ^ (v.b + 1) ≤ 2 ^ 30 := Nat.pow_le_pow_right (by decide) hwidth
  have hcap : 2 ^ ((v.b + 1) * v.k) ≤ 2 ^ 64 :=
    Nat.pow_le_pow_right (by decide) (by rw [Nat.mul_comm]; exact h.packed.fits)
  have hX : pack (v.b + 1) (List.replicate v.k (vals.getD i 0 + 2 ^ v.b)) < 2 ^ 64 := by
    have := pack_lt (v.b + 1) (List.replicate v.k (vals.getD i 0 + 2 ^ v.b))
      (fun x hx => by rw [List.eq_of_mem_replicate hx]; omega)
    rw [List.length_replicate] at this
    exact lt_of_lt_of_le this hcap
  have hsub := pack_sub_add (v.b + 1) (vals.getD i 0 + 2 ^ v.b) vals
    (fun x hx => by have := hvals x hx; omega)
  rw [h.packed.size] at hsub
  unfold ConstTimeRankVec.carries
  rw [h.packed.get_eq i hi, toT_shlInt v.b (by omega), hW,
    Nat.mod_eq_of_lt (show vals.getD i 0 + 2 ^ v.b < 2 ^ 64 by omega), h.ones,
    pack_mul_replicate, Nat.mod_eq_of_lt hX, h.packed.data, ← hsub]
  have hD : pack (v.b + 1) (vals.map (fun x => vals.getD i 0 + 2 ^ v.b - x)) < 2 ^ 64 := by
    omega
  have hrew : pack (v.b + 1) (vals.map (fun x => vals.getD i 0 + 2 ^ v.b - x))
        + pack (v.b + 1) vals + 2 ^ 64 - pack (v.b + 1) vals
      = 2 ^ 64 + pack (v.b + 1) (vals.map (fun x => vals.getD i 0 + 2 ^ v.b - x)) := by
    omega
  rw [hrew, Nat.add_mod_left, Nat.mod_eq_of_lt hD]

/-- The rank formula on a constructed vector with `1 ≤ b ≤ 29` whose slots
hold values below `2 ^ b` (duplicates allowed): `rank(i)` is the number of
slots holding a value less than or equal to the value of slot `i`, minus one. -/
theorem Holds.rank_count {v : ConstTimeRankVec} {vals : List Nat} (h : Holds v vals)
    (hb : 1 ≤ v.b) (hvals : ∀ x ∈ vals, x < 2 ^ v.b) (i : Nat) (hi : i < v.k) :
    v.rank i = vals.countP (fun x => decide (x ≤ vals.getD i 0)) - 1 := by
  have hW : wordMod = 2 ^ 64 := rfl
  have hpow : 2 ^ (v.b + 1) = 2 * 2 ^ v.b := by rw [Nat.pow_succ, Nat.mul_comm]
  have hg : vals.getD i 0 < 2 ^ v.b := getD_lt vals _ i (Nat.two_pow_pos _) hvals
  have hcount_le : vals.countP (fun x => decide (x ≤ vals.getD i 0)) ≤ v.k := by
    rw [← h.packed.size]; exact List.countP_le_length _
  have hkb := h.count
  have h2b : 2 ≤ 2 ^ v.b := by
    calc 2 = 2 ^ 1 := rfl
      _ ≤ 2 ^ v.b := Nat.pow_le_pow_right (by decide) hb
  have hilen : i < vals.length := by rw [h.packed.size]; exact hi
  have hcount_pos : 0 < vals.countP (fun x => decide (x ≤ vals.getD i 0)) := by
    apply List.countP_pos_iff.mpr
    refine ⟨vals.getD i 0, ?_, by simp⟩
    rw [List.getD_eq_getElem _ _ hilen]; exact List.getElem_mem _
  unfold ConstTimeRankVec.rank
  rw [h.carries_eq hvals i hi, h.ones,
    carries_and_ones v.b v.k (vals.getD i 0) vals (le_of_eq h.packed.size) hvals hg, h.packed.mask,
    pack_mod, sum_indicator,
    Nat.mod_eq_of_lt (show vals.countP (fun x => decide (x ≤ vals.getD i 0)) < 2 ^ (v.b + 1) - 1
      by omega), hW]
  have h64 : v.k ≤ 64 := h.packed.k_le
  have hrew : vals.countP (fun x => decide (x ≤ vals.getD i 0)) + 2 ^ 64 - 1
      = 2 ^ 64 + (vals.countP (fun x => decide (x ≤ vals.getD i 0)) - 1) := by omega
  rw [hrew, Nat.add_mod_left]
  exact Nat.mod_eq_of_lt (by omega)

/-- On a constructed vector with `b + 1 ≤ 30` whose slots hold values below
`2 ^ b`, the product `(get(i) + 2^b) * mul` of the rank formula is below
`2 ^ 64`, and it is `data` plus the word whose fields are the differences
`get(i) + 2^b - get(j)`. -/
theorem Holds.product_no_wrap {v : ConstTimeRankVec} {vals : List Nat} (h : Holds v vals)
    (hvals : ∀ x ∈ vals, x < 2 ^ v.b) (i : Nat) (hi : i < v.k) :
    (v.get i + 2 ^ v.b) * v.mul < 2 ^ 64 ∧
      (v.get i + 2 ^ v.b) * v.mul
        = v.data + pack (v.b + 1) (vals.map (fun x => v.get i + 2 ^ v.b - x)) := by
  have hwidth := h.packed.width
  have hpow : 2 ^ (v.b + 1) = 2 * 2 ^ v.b := by rw [Nat.pow_succ, Nat.mul_comm]
  have hg : vals.getD i 0 < 2 ^ v.b := getD_lt vals _ i (Nat.two_pow_pos _) hvals
  have hcap : 2 ^ ((v.b + 1) * v.k) ≤ 2 ^ 64 :=
    Nat.pow_le_pow_right (by decide) (by rw [Nat.mul_comm]; exact h.packed.fits)
  have hX : pack (v.b + 1) (List.replicate v.k (vals.getD i 0 + 2 ^ v.b)) < 2 ^ 64 := by
    have := pack_lt (v.b + 1) (List.replicate v.k (vals.getD i 0 + 2 ^ v.b))
      (fun x hx => by rw [List.eq_of_mem_replicate hx]; omega)
    rw [List.length_replicate] at this
    exact lt_of_lt_of_le this hcap
  have hsub := pack_sub_add (v.b + 1) (vals.getD i 0 + 2 ^ v.b) vals
    (fun x hx => by have := hvals x hx; omega)
  rw [h.packed.size] at hsub
  rw [h.packed.get_eq i hi, h.ones, pack_mul_replicate, h.packed.data, ← hsub]
  exact ⟨by rw [hsub]; exact hX, Nat.add_comm _ _⟩

theorem pack_drop (w : Nat) (hw : 0 < w) (vs : List Nat) (hvs : ∀ v ∈ vs, v < 2 ^ w) (i : Nat) :
    pack w vs >>> (w * i) = pack w (vs.drop i) := by
  have hdrop : ∀ v ∈ vs.drop i, v < 2 ^ w := fun v hv => hvs v (List.mem_of_mem_drop hv)
  apply Nat.eq_of_testBit_eq
  intro n
  rw [Nat.testBit_shiftRight, pack_testBit _ hw _ hvs, pack_testBit _ hw _ hdrop,
    Nat.mul_add_div hw, Nat.mul_add_mod]
  simp only [List.getD_eq_getElem?_getD, List.getElem?_drop]

/-- The shifted variant of the rank formula on a constructed vector with
`1 ≤ b ≤ 29` whose slots hold values below `2 ^ b`: `rank_bigger(i)` counts
only the slots from `i` on, it is the number of slots `j ≥ i` holding a value
less than or equal to the value of slot `i`, minus one. -/
theorem Holds.rank_bigger_drop {v : ConstTimeRankVec} {vals : List Nat} (h : Holds v vals)
    (hb : 1 ≤ v.b) (hvals : ∀ x ∈ vals, x < 2 ^ v.b) (i : Nat) (hi : i < v.k) :
    v.rank_bigger i = (vals.drop i).countP (fun x => decide (x ≤ vals.getD i 0)) - 1 := by
  have hW : wordMod = 2 ^ 64 := rfl
  have hw : 0 < v.b + 1 := Nat.succ_pos _
  have hpow : 2 ^ (v.b + 1) = 2 * 2 ^ v.b := by rw [Nat.pow_succ, Nat.mul_comm]
  have hg : vals.getD i 0 < 2 ^ v.b := getD_lt vals _ i (Nat.two_pow_pos _) hvals
  have hilen : i < vals.length := by rw [h.packed.size]; exact hi
  have hdroplen : (vals.drop i).length ≤ v.k := by
    rw [List.length_drop, h.packed.size]; omega
  have hcount_le : (vals.drop i).countP (fun x => decide (x ≤ vals.getD i 0)) ≤ v.k :=
    le_trans (List.countP_le_length _) hdroplen
  have hkb := h.count
  have h2b : 2 ≤ 2 ^ v.b := by
    calc 2 = 2 ^ 1 := rfl
      _ ≤ 2 ^ v.b := Nat.pow_le_pow_right (by decide) hb
  have hcount_pos : 0 < (vals.drop i).countP (fun x => decide (x ≤ vals.getD i 0)) := by
    apply List.countP_pos_iff.mpr
    refine ⟨vals.getD i 0, ?_, by simp⟩
    rw [List.getD_eq_getElem _ _ hilen, List.mem_iff_getElem]
    refine ⟨0, by rw [List.length_drop]; omega, ?_⟩
    rw [List.getElem_drop]
    rfl
  have hds : ∀ d ∈ vals.map (fun x => vals.getD i 0 + 2 ^ v.b - x), d < 2 ^ (v.b + 1) := by
    intro d hd
    obtain ⟨x, _, hx⟩ := List.mem_map.mp hd
    omega
  have hoff : (i * ((v.b + 1) % wordMod)) % wordMod = (v.b + 1) * i := by
    have := h.packed.offset_eq i (le_of_lt hi)
    unfold ConstTimeRankVec.offset at this
    rw [Nat.mul_comm]; exact this
  unfold ConstTimeRankVec.rank_bigger
  rw [h.carries_eq hvals i hi, hoff, ← Nat.shiftRight_add, Nat.add_comm v.b ((v.b + 1) * i), Nat.shiftRight_add,
    pack_drop _ hw _ hds, ← List.map_drop, h.ones,
    carries_and_ones v.b v.k (vals.getD i 0) (vals.drop i) hdroplen
      (fun x hx => hvals x (List.mem_of_mem_drop hx)) hg, h.packed.mask,
    pack_mod, sum_indicator,
    Nat.mod_eq_of_lt (show (vals.drop i).countP (fun x => decide (x ≤ vals.getD i 0))
      < 2 ^ (v.b + 1) - 1 by omega), hW]
  have h64 : v.k ≤ 64 := h.packed.k_le
  have hrew : (vals.drop i).countP (fun x => decide (x ≤ vals.getD i 0)) + 2 ^ 64 - 1
      = 2 ^ 64 + ((vals.drop i).countP (fun x => decide (x ≤ vals.getD i 0)) - 1) := by omega
  rw [hrew, Nat.add_mod_left]
  exact Nat.mod_eq_of_lt (by omega)

/-! ## Swaps and ranks on lists -/

theorem getD_set_int (l : List Int) (i j : Nat) (a : Int) :
    (l.set i a).getD j 0 = if i = j ∧ i < l.length then a else l.getD j 0 := by
  induction l generalizing i j with
  | nil =>
    rw [List.set_nil, if_neg (fun hc => Nat.not_lt_zero _ hc.2)]
  | cons x xs ih =>
    cases i with
    | zero =>
      cases j with
      | zero => rw [List.set_cons_zero, List.getD_cons_zero, if_pos ⟨rfl, Nat.succ_pos _⟩]
      | succ j =>
        rw [List.set_cons_zero, List.getD_cons_succ, List.getD_cons_succ,
          if_neg (fun hc => Nat.succ_ne_zero j hc.1.symm)]
    | succ i =>
      cases j with
      | zero =>
        rw [List.set_cons_succ, List.getD_cons_zero, List.getD_cons_zero,
          if_neg (fun hc => Nat.succ_ne_zero i hc.1)]
      | succ j =>
        rw [List.set_cons_succ, List.getD_cons_succ, List.getD_cons_succ, ih]
        by_cases hc : i = j ∧ i < xs.length
        · rw [if_pos hc, if_pos ⟨congrArg Nat.succ hc.1, Nat.succ_lt_succ hc.2⟩]
        · rw [if_neg hc, if_neg (fun hd => hc ⟨Nat.succ.inj hd.1, Nat.lt_of_succ_lt_succ hd.2⟩)]

theorem getD_iterSwap (seq : List Int) (i j m : Nat) (hi : i < seq.length)
    (hj : j < seq.length) :
    (iterSwap seq i j).getD m 0 =
      if m = j then seq.getD i 0 else if m = i then seq.getD j 0 else seq.getD m 0 := by
  unfold iterSwap
  rw [getD_set_int, getD_set_int, List.length_set]
  by_cases h1 : m = j
  · rw [if_pos ⟨h1.symm, hj⟩, if_pos h1]
  · rw [if_neg (fun hc => h1 hc.1.symm), if_neg h1]
    by_cases h2 : m = i
    · rw [if_pos ⟨h2.symm, hi⟩, if_pos h2]
    · rw [if_neg (fun hc => h2 hc.1.symm), if_neg h2]

theorem length_iterSwap (seq : List Int) (i j : Nat) : (iterSwap seq i j).length = seq.length := by
  unfold iterSwap
  rw [List.length_set, List.length_set]

theorem iterSwap_perm (seq : List Int) (i j : Nat) (hi : i < seq.length) (hj : j < seq.length) :
    (iterSwap seq i j).Perm seq := by
  rw [List.perm_iff_count]
  intro a
  unfold iterSwap
  have hj2 : j < (seq.set i (seq.getD j 0)).length := by rw [List.length_set]; exact hj
  rw [List.count_set _ _ _ _ hj2, List.count_set _ _ _ _ hi]
  have hmid : (seq.set i (seq.getD j 0))[j] = seq.getD j 0 := by
    rw [← List.getD_eq_getElem _ 0 hj2, getD_set_int]
    by_cases hc : i = j ∧ i < seq.length
    · rw [if_pos hc]
    · rw [if_neg hc]
  rw [hmid, List.getD_eq_getElem _ 0 hi, List.getD_eq_getElem _ 0 hj]
  have h1 : (if seq[i] == a then 1 else 0) ≤ seq.count a := by
    rw [List.count_eq_countP]
    exact List.boole_getElem_le_countP (fun x => x == a) seq i hi
  generalize (if seq[i] == a then 1 else 0) = u at h1 ⊢
  generalize (if seq[j] == a then 1 else 0) = w
  omega

theorem map_iterSwap (f : Int → Nat) (seq : List Int) (i j : Nat) (hi : i < seq.length)
    (hj : j < seq.length) :
    (iterSwap seq i j).map f = swapAt (seq.map f) i j := by
  unfold iterSwap swapAt
  have h1 : (seq.map f).getD j 0 = f (seq.getD j 0) := by
    rw [List.getD_eq_getElem _ 0 (by rw [List.length_map]; exact hj), List.getD_eq_getElem _ 0 hj,
      List.getElem_map]
  have h2 : (seq.map f).getD i 0 = f (seq.getD i 0) := by
    rw [List.getD_eq_getElem _ 0 (by rw [List.length_map]; exact hi), List.getD_eq_getElem _ 0 hi,
      List.getElem_map]
  rw [List.map_set, List.map_set, h1, h2]

theorem rankOf_perm (l seq : List Int) (h : seq.Perm l) (e : Int) :
    rankOf seq e = rankOf l e :=
  h.countP_eq _

theorem rankOf_mono (l : List Int) (a c : Int) (h : a ≤ c) : rankOf l a ≤ rankOf l c := by
  unfold rankOf
  apply List.countP_mono_left
  intro x _ hx
  simp only [decide_eq_true_eq] at hx ⊢
  omega

theorem countP_le_eq (l : List Int) (a : Int) (hnodup : l.Nodup) (ha : a ∈ l) :
    l.countP (fun y => decide (y ≤ a)) = rankOf l a + 1 := by
  unfold rankOf
  induction l with
  | nil => exact absurd ha (List.not_mem_nil a)
  | cons y ys ih =>
    rw [List.countP_cons, List.countP_cons]
    have hy : y ∉ ys := (List.nodup_cons.mp hnodup).1
    have hys : ys.Nodup := (List.nodup_cons.mp hnodup).2
    by_cases hya : y = a
    · have hcong : ys.countP (fun z => decide (z ≤ a)) = ys.countP (fun z => decide (z < a)) := by
        apply List.countP_congr
        intro z hz
        have hne : z ≠ a := fun hc => hy (by rw [hya, ← hc]; exact hz)
        simp only [decide_eq_true_eq]
        omega
      rw [hcong, hya]
      simp
    · have hmem : a ∈ ys := by
        rcases List.mem_cons.mp ha with h1 | h1
        · exact absurd h1.symm hya
        · exact h1
      rw [ih hys hmem]
      by_cases hle : y ≤ a
      · have hlt : y < a := lt_of_le_of_ne hle hya
        simp [hle, hlt]
      · have hlt : ¬ y < a := fun hc => hle (le_of_lt hc)
        simp [hle, hlt]

theorem rankOf_lt_of_lt (l : List Int) (a c : Int) (hnodup : l.Nodup) (ha : a ∈ l)
    (h : a < c) : rankOf l a < rankOf l c := by
  have h1 := countP_le_eq l a hnodup ha
  have h2 : l.countP (fun y => decide (y ≤ a)) ≤ rankOf l c := by
    unfold rankOf
    apply List.countP_mono_left
    intro x _ hx
    simp only [decide_eq_true_eq] at hx ⊢
    omega
  omega

theorem rankOf_inj (l : List Int) (a c : Int) (hnodup : l.Nodup) (ha : a ∈ l) (hc : c ∈ l)
    (h : rankOf l a = rankOf l c) : a = c := by
  rcases lt_trichotomy a c with h1 | h1 | h1
  · have := rankOf_lt_of_lt l a c hnodup ha h1; omega
  · exact h1
  · have := rankOf_lt_of_lt l c a hnodup hc h1; omega

theorem rankOf_lt_length (l : List Int) (a : Int) (hnodup : l.Nodup) (ha : a ∈ l) :
    rankOf l a < l.length := by
  have h1 := countP_le_eq l a hnodup ha
  have h2 : l.countP (fun y => decide (y ≤ a)) ≤ l.length := List.countP_le_length _
  omega

/-! ## The placement loop -/

theorem getD_mem (seq : List Int) (i : Nat) (hi : i < seq.length) : seq.getD i 0 ∈ seq := by
  rw [List.getD_eq_getElem _ 0 hi]; exact List.getElem_mem _

theorem getD_inj (seq : List Int) (hnodup : seq.Nodup) (i j : Nat) (hi : i < seq.length)
    (hj : j < seq.length) (h : seq.getD i 0 = seq.getD j 0) : i = j := by
  rw [List.getD_eq_getElem _ 0 hi, List.getD_eq_getElem _ 0 hj] at h
  exact (hnodup.getElem_inj_iff).mp h

theorem LoopInv.rank_eq_rankOf {l : List Int} {sh : Int → Nat} {i : Nat} {seq : List Int}
    {vec : ConstTimeRankVec} (h : LoopInv l sh i seq vec) (hl : l.Nodup)
    (hsh : ∀ x ∈ l, ∀ y ∈ l, (sh x ≤ sh y ↔ x ≤ y)) (p : Nat) (hp : p < l.length) :
    vec.rank p = rankOf l (seq.getD p 0) := by
  have hlen : seq.length = l.length := h.perm.length_eq
  have hpseq : p < seq.length := by rw [hlen]; exact hp
  have hnodup : seq.Nodup := (h.perm.nodup_iff).mpr hl
  have hmem : seq.getD p 0 ∈ seq := getD_mem seq p hpseq
  have hvals : ∀ x ∈ seq.map sh, x < 2 ^ vec.b := by
    intro x hx
    obtain ⟨e, he, hxe⟩ := List.mem_map.mp hx
    rw [← hxe]; exact h.small e ((h.perm.mem_iff).mp he)
  have hget : (seq.map sh).getD p 0 = sh (seq.getD p 0) := by
    rw [List.getD_eq_getElem _ 0 (by rw [List.length_map]; exact hpseq),
      List.getD_eq_getElem _ 0 hpseq, List.getElem_map]
  rw [h.holds.rank_count h.bits hvals p (by rw [h.size]; exact hp), hget, List.countP_map]
  have hcongr : seq.countP ((fun x => decide (x ≤ sh (seq.getD p 0))) ∘ sh)
      = seq.countP (fun y => decide (y ≤ seq.getD p 0)) := by
    apply List.countP_congr
    intro e he
    simp only [Function.comp_apply, decide_eq_true_eq]
    exact hsh e ((h.perm.mem_iff).mp he) _ ((h.perm.mem_iff).mp hmem)
  rw [hcongr, countP_le_eq seq _ hnodup hmem, Nat.add_sub_cancel, rankOf_perm l seq h.perm]

theorem target_eq (i r : Nat) (hir : i ≤ r) (hr : r < 2 ^ 63) :
    (i : Int) + toDiff ((r + wordMod - i) % wordMod) = (r : Int) := by
  have hW : wordMod = 2 ^ 64 := rfl
  have h1 : (r + wordMod - i) % wordMod = r - i := by
    rw [hW, show r + 2 ^ 64 - i = 2 ^ 64 + (r - i) by omega, Nat.add_mod_left]
    exact Nat.mod_eq_of_lt (by omega)
  rw [h1]
  unfold toDiff
  have h2 : (r - i) % 2 ^ 64 = r - i := Nat.mod_eq_of_lt (by omega)
  rw [h2, if_pos (by omega)]
  omega

theorem mem_unplaced (l seq : List Int) (j : Nat) :
    j ∈ unplaced l seq ↔ j < seq.length ∧ rankOf l (seq.getD j 0) ≠ j := by
  unfold unplaced
  rw [Finset.mem_filter, Finset.mem_range]

theorem unplaced_card_zero (l seq : List Int)
    (h : ∀ j, j < seq.length → rankOf l (seq.getD j 0) = j) : (unplaced l seq).card = 0 := by
  rw [Finset.card_eq_zero, Finset.eq_empty_iff_forall_not_mem]
  intro j hj
  rw [mem_unplaced] at hj
  exact hj.2 (h j hj.1)

theorem placed_of_unplaced_card_zero (l seq : List Int) (h : (unplaced l seq).card = 0)
    (j : Nat) (hj : j < seq.length) : rankOf l (seq.getD j 0) = j := by
  by_contra hne
  have hmem : j ∈ unplaced l seq := (mem_unplaced l seq j).mpr ⟨hj, hne⟩
  rw [Finset.card_eq_zero] at h
  rw [h] at hmem
  exact absurd hmem (Finset.not_mem_empty j)

theorem LoopInv.swap_step {l : List Int} {sh : Int → Nat} {i : Nat} {seq : List Int}
    {vec : ConstTimeRankVec} (h : LoopInv l sh i seq vec) (hl : l.Nodup) (hi : i < l.length)
    (hne : rankOf l (seq.getD i 0) ≠ i) :
    i < rankOf l (seq.getD i 0) ∧ rankOf l (seq.getD i 0) < l.length ∧
      LoopInv l sh i (iterSwap seq i (rankOf l (seq.getD i 0)))
        (vec.swap i (rankOf l (seq.getD i 0))) ∧
      (unplaced l (iterSwap seq i (rankOf l (seq.getD i 0)))).card + 1 ≤ (unplaced l seq).card ∧
      2 ≤ (unplaced l seq).card := by
  have hlen : seq.length = l.length := h.perm.length_eq
  have hiseq : i < seq.length := by rw [hlen]; exact hi
  have hnodup : seq.Nodup := (h.perm.nodup_iff).mpr hl
  have hmem : seq.getD i 0 ∈ l := (h.perm.mem_iff).mp (getD_mem seq i hiseq)
  generalize hr : rankOf l (seq.getD i 0) = r at hne ⊢
  have hrlt : r < l.length := by rw [← hr]; exact rankOf_lt_length l _ hl hmem
  have hrseq : r < seq.length := by rw [hlen]; exact hrlt
  have hnotr : rankOf l (seq.getD r 0) ≠ r := by
    intro hc
    have heq : seq.getD r 0 = seq.getD i 0 :=
      rankOf_inj l _ _ hl ((h.perm.mem_iff).mp (getD_mem seq r hrseq)) hmem (by rw [hc, hr])
    exact hne (getD_inj seq hnodup r i hrseq hiseq heq)
  have hir : i < r := by
    rcases Nat.lt_trichotomy i r with h1 | h1 | h1
    · exact h1
    · exact absurd h1.symm hne
    · exact absurd (h.placed r h1) hnotr
  have hswapget : ∀ m, (iterSwap seq i r).getD m 0 =
      if m = r then seq.getD i 0 else if m = i then seq.getD r 0 else seq.getD m 0 :=
    fun m => getD_iterSwap seq i r m hiseq hrseq
  have hinv : LoopInv l sh i (iterSwap seq i r) (vec.swap i r) := by
    refine
      { perm := (iterSwap_perm seq i r hiseq hrseq).trans h.perm, holds := ?_, placed := ?_,
        cursor := h.cursor, size := h.size, bits := h.bits, small := h.small }
    · rw [map_iterSwap sh seq i r hiseq hrseq]
      exact h.holds.swap_holds i r (by rw [h.size]; exact hi) (by rw [h.size]; exact hrlt)
    · intro j hj
      rw [hswapget, if_neg (by omega), if_neg (by omega)]
      exact h.placed j hj
  have hiU : i ∈ unplaced l seq := (mem_unplaced l seq i).mpr ⟨hiseq, by rw [hr]; exact hne⟩
  have hrU : r ∈ unplaced l seq := (mem_unplaced l seq r).mpr ⟨hrseq, hnotr⟩
  have hsub : unplaced l (iterSwap seq i r) ⊆ (unplaced l seq).erase r := by
    intro j hj
    rw [mem_unplaced, length_iterSwap, hswapget] at hj
    rw [Finset.mem_erase]
    by_cases hjr : j = r
    · rw [if_pos hjr, hr] at hj
      exact absurd hjr.symm hj.2
    · refine ⟨hjr, ?_⟩
      by_cases hji : j = i
      · rw [hji]; exact hiU
      · rw [if_neg hjr, if_neg hji] at hj
        exact (mem_unplaced l seq j).mpr hj
  have hcard := Finset.card_le_card hsub
  rw [Finset.card_erase_of_mem hrU] at hcard
  have htwo : 1 < (unplaced l seq).card :=
    Finset.one_lt_card.mpr ⟨i, hiU, r, hrU, by omega⟩
  exact ⟨hir, hrlt, hinv, by omega, htwo⟩

theorem LoopInv.advance {l : List Int} {sh : Int → Nat} {i : Nat} {seq : List Int}
    {vec : ConstTimeRankVec} (h : LoopInv l sh i seq vec) (hi : i < l.length)
    (heq : rankOf l (seq.getD i 0) = i) : LoopInv l sh (i + 1) seq vec :=
  { perm := h.perm, holds := h.holds,
    placed := fun j hj => by
      rcases Nat.lt_succ_iff_lt_or_eq.mp hj with h1 | h1
      · exact h.placed j h1
      · rw [h1]; exact heq
    cursor := hi, size := h.size, bits := h.bits, small := h.small }

/-- Under the loop invariant the rank of the cursor position is at least the
cursor and below `n`: the offset `rank - i` handed to `std::next` is
non-negative and less than `n - i`; and slot `p` of the rank vector reads the
shifted value of the element at position `p`. -/
theorem LoopInv.cursor_rank_bounds {l : List Int} {sh : Int → Nat} {i : Nat} {seq : List Int}
    {vec : ConstTimeRankVec} (h : LoopInv l sh i seq vec) (hl : l.Nodup)
    (hsh : ∀ x ∈ l, ∀ y ∈ l, (sh x ≤ sh y ↔ x ≤ y)) (hi : i < l.length) :
    i ≤ vec.rank i ∧ vec.rank i < l.length ∧
      0 ≤ toDiff ((vec.rank i + wordMod - i) % wordMod) ∧
      toDiff ((vec.rank i + wordMod - i) % wordMod) < (l.length : Int) - (i : Int) ∧
      (∀ p, p < l.length → vec.get p = sh (seq.getD p 0)) := by
  have hr := h.rank_eq_rankOf hl hsh i hi
  have hbounds : i ≤ vec.rank i ∧ vec.rank i < l.length := by
    rw [hr]
    by_cases heq : rankOf l (seq.getD i 0) = i
    · rw [heq]; exact ⟨le_refl i, hi⟩
    · have := h.swap_step hl hi heq
      exact ⟨le_of_lt this.1, this.2.1⟩
  have h64 : l.length ≤ 64 := by rw [← h.size]; exact h.holds.packed.k_le
  have ht := target_eq i (vec.rank i) hbounds.1
    (lt_of_lt_of_le hbounds.2 (le_trans h64 (by decide)))
  refine ⟨hbounds.1, hbounds.2, by omega, by omega, ?_⟩
  intro p hp
  have hlen : seq.length = l.length := h.perm.length_eq
  rw [h.holds.packed.get_eq p (by rw [h.size]; exact hp), List.getD_eq_getElem _ 0
    (by rw [List.length_map, hlen]; exact hp), List.getElem_map,
    List.getD_eq_getElem _ 0 (by rw [hlen]; exact hp)]

/-- Under the loop invariant a swap of the placement loop puts the element of
the cursor position at the position of its rank, where an element of another
rank stood before; no position that holds the element of its rank is touched,
and the invariant holds again after the swap. -/
theorem LoopInv.swap_places_element {l : List Int} {sh : Int → Nat} {i : Nat} {seq : List Int}
    {vec : ConstTimeRankVec} (h : LoopInv l sh i seq vec) (hl : l.Nodup)
    (hsh : ∀ x ∈ l, ∀ y ∈ l, (sh x ≤ sh y ↔ x ≤ y)) (hi : i < l.length)
    (hne : vec.rank i ≠ i) :
    i < vec.rank i ∧ vec.rank i < l.length ∧
      rankOf l ((iterSwap seq i (vec.rank i)).getD (vec.rank i) 0) = vec.rank i ∧
      rankOf l (seq.getD (vec.rank i) 0) ≠ vec.rank i ∧
      (∀ j, j < l.length → rankOf l (seq.getD j 0) = j →
        (iterSwap seq i (vec.rank i)).getD j 0 = seq.getD j 0) ∧
      LoopInv l sh i (iterSwap seq i (vec.rank i)) (vec.swap i (vec.rank i)) := by
  have hr := h.rank_eq_rankOf hl hsh i hi
  rw [hr] at hne ⊢
  have hstep := h.swap_step hl hi hne
  have hlen : seq.length = l.length := h.perm.length_eq
  have hseqnodup : seq.Nodup := h.perm.nodup_iff.mpr hl
  have hmem : ∀ p, p < l.length → seq.getD p 0 ∈ l := fun p hp =>
    h.perm.subset (getD_mem seq p (by rw [hlen]; exact hp))
  have hbefore : rankOf l (seq.getD (rankOf l (seq.getD i 0)) 0) ≠ rankOf l (seq.getD i 0) := by
    intro hc
    have heq := rankOf_inj l _ _ hl (hmem _ hstep.2.1) (hmem i hi) hc
    have := getD_inj seq hseqnodup _ i (by rw [hlen]; exact hstep.2.1) (by rw [hlen]; exact hi) heq
    exact hne this
  refine ⟨hstep.1, hstep.2.1, ?_, hbefore, ?_, hstep.2.2.1⟩
  · rw [getD_iterSwap seq i _ _ (by rw [hlen]; exact hi) (by rw [hlen]; exact hstep.2.1),
      if_pos rfl]
  · intro j hj hplaced
    have hji : j ≠ i := fun hc => hne (by rw [← hc]; exact hplaced)
    have hjr : j ≠ rankOf l (seq.getD i 0) := fun hc => hbefore (by rw [← hc]; exact hplaced)
    rw [getD_iterSwap seq i _ _ (by rw [hlen]; exact hi) (by rw [hlen]; exact hstep.2.1),
      if_neg hjr, if_neg hji]
/-- The placement loop under its invariant: with more fuel than twice the
remaining work it returns normally; the result is a permutation of the input
in which every position holds the element of that rank; one swap is made for
at least one newly placed position, and none if every position is placed. -/
theorem placementLoop_correct (l : List Int) (sh : Int → Nat) (hl : l.Nodup)
    (hsh : ∀ x ∈ l, ∀ y ∈ l, (sh x ≤ sh y ↔ x ≤ y)) :
    ∀ (fuel i : Nat) (seq : List Int) (vec : ConstTimeRankVec) (swaps : Nat),
      LoopInv l sh i seq vec → (l.length - i) + (unplaced l seq).card < fuel →
      ∃ out total, placementLoop fuel l.length i seq vec swaps = Outcome.done out total ∧
        out.Perm l ∧ (∀ j, j < l.length → rankOf l (out.getD j 0) = j) ∧
        ((unplaced l seq).card = 0 → out = seq ∧ total = swaps) ∧
        (0 < (unplaced l seq).card → swaps < total ∧ total + 1 ≤ swaps + (unplaced l seq).card) := by
  intro fuel
  induction fuel with
  | zero => intro i seq vec swaps _ hfuel; exact absurd hfuel (Nat.not_lt_zero _)
  | succ fuel ih =>
    intro i seq vec swaps hinv hfuel
    have hlen : seq.length = l.length := hinv.perm.length_eq
    have hk64 : l.length ≤ 64 := by rw [← hinv.size]; exact hinv.holds.packed.k_le
    rw [placementLoop_succ]
    by_cases hi : i < l.length
    · rw [if_pos hi, hinv.rank_eq_rankOf hl hsh i hi]
      by_cases hne : rankOf l (seq.getD i 0) ≠ i
      · obtain ⟨hir, hrlt, hinv2, hcard, htwo⟩ := hinv.swap_step hl hi hne
        rw [if_pos hne, target_eq i _ (le_of_lt hir) (by omega),
          if_pos ⟨Int.ofNat_nonneg _, Int.ofNat_lt.mpr hrlt⟩, Int.toNat_ofNat]
        obtain ⟨out, total, hrun, hperm, hplaced, hzero, hpos⟩ :=
          ih i _ _ (swaps + 1) hinv2 (by omega)
        refine ⟨out, total, hrun, hperm, hplaced, fun h0 => by omega, fun _ => ?_⟩
        by_cases hU : (unplaced l (iterSwap seq i (rankOf l (seq.getD i 0)))).card = 0
        · have := (hzero hU).2
          omega
        · have := hpos (Nat.pos_of_ne_zero hU)
          omega
      · rw [if_neg hne]
        have heq : rankOf l (seq.getD i 0) = i := not_not.mp hne
        exact ih (i + 1) seq vec swaps (hinv.advance hi heq) (by omega)
    · rw [if_neg hi]
      have hin : i = l.length := le_antisymm hinv.cursor (not_lt.mp hi)
      have hall : ∀ j, j < l.length → rankOf l (seq.getD j 0) = j :=
        fun j hj => hinv.placed j (by rw [hin]; exact hj)
      have hU : (unplaced l seq).card = 0 :=
        unplaced_card_zero l seq (fun j hj => hall j (by rw [← hlen]; exact hj))
      exact ⟨seq, swaps, rfl, hinv.perm, hall, fun _ => ⟨rfl, rfl⟩,
        fun hpos => absurd hU (Nat.pos_iff_ne_zero.mp hpos)⟩

/-! ## Correctness of `linearRankSort` -/

theorem sorted_of_placed (l out : List Int) (hperm : out.Perm l)
    (hplaced : ∀ j, j < l.length → rankOf l (out.getD j 0) = j) :
    out.Sorted (fun a c => a < c) := by
  have hlen : out.length = l.length := hperm.length_eq
  unfold List.Sorted
  rw [List.pairwise_iff_getElem]
  intro i j hi hj hij
  by_contra hnot
  have hle : out[j] ≤ out[i] := not_lt.mp hnot
  have h1 := hplaced i (by rw [← hlen]; exact hi)
  have h2 := hplaced j (by rw [← hlen]; exact hj)
  rw [List.getD_eq_getElem _ 0 hi] at h1
  rw [List.getD_eq_getElem _ 0 hj] at h2
  have := rankOf_mono l _ _ hle
  omega

theorem unplaced_card_le (l seq : List Int) : (unplaced l seq).card ≤ seq.length := by
  unfold unplaced
  exact le_trans (Finset.card_filter_le _ _) (by rw [Finset.card_range])

theorem length_le_of_nodup_of_lt (vals : List Nat) (R : Nat) (hnodup : vals.Nodup)
    (hlt : ∀ x ∈ vals, x < R) : vals.length ≤ R := by
  have hsub : vals ⊆ List.range R := fun x hx => List.mem_range.mpr (hlt x hx)
  have := (List.Nodup.subperm hnodup hsub).length_le
  rw [List.length_range] at this
  exact this

/-- Correctness of `linearRankSort` where the source computes what it means
to compute: at least two pairwise distinct elements, value range at most
`2 ^ 29` (so that `1 ≤ b` and `b + 1 ≤ 30`) and the capacity constraint.  With
more than `2 n` loop iterations allowed the call returns normally; the result
is an ascending permutation of the input, at most `n - 1` swaps are made, none
exactly when the input is ascending, and an ascending input is returned as it
is. -/
theorem linearRankSort_correct (fuel : Nat) (x : Int) (xs : List Int)
    (hnodup : (x :: xs).Nodup) (htwo : 2 ≤ (x :: xs).length)
    (hrange : maxElement x xs - minElement x xs + 1 ≤ 2 ^ 29)
    (hcap : (x :: xs).length *
      (Nat.clog 2 (maxElement x xs - minElement x xs + 1).toNat + 1) ≤ 64)
    (hfuel : 2 * (x :: xs).length < fuel) :
    ∃ out swaps, linearRankSort true fuel (x :: xs) = Outcome.done out swaps ∧
      out.Perm (x :: xs) ∧ out.Sorted (fun a c => a < c) ∧
      swaps ≤ (x :: xs).length - 1 ∧
      (swaps = 0 ↔ (x :: xs).Sorted (fun a c => a < c)) ∧
      ((x :: xs).Sorted (fun a c => a < c) → out = x :: xs) := by
  have hW : wordMod = 2 ^ 64 := rfl
  have hmM : minElement x xs ≤ maxElement x xs :=
    le_trans (minElement_le x xs) (le_maxElement x xs)
  generalize hm : minElement x xs = m at *
  generalize hM : maxElement x xs = M at *
  generalize hR : (M - m + 1).toNat = R at *
  generalize hl : x :: xs = l at *
  have hRle : R ≤ 2 ^ 29 := by omega
  have hbound : ∀ e ∈ l, m ≤ e ∧ e ≤ M := by
    intro e he
    rw [← hl] at he
    rw [← hm, ← hM]
    exact ⟨minElement_le_of_mem x xs e he, le_maxElement_of_mem x xs e he⟩
  have hshval : ∀ e ∈ l, toT (e - m) = (e - m).toNat := by
    intro e he
    have := hbound e he
    exact toT_of_lt _ (by omega) (by omega)
  have hsh : ∀ a ∈ l, ∀ c ∈ l, (toT (a - m) ≤ toT (c - m) ↔ a ≤ c) := by
    intro a ha c hc
    have h1 := hbound a ha
    have h2 := hbound c hc
    rw [hshval a ha, hshval c hc]
    omega
  have hshlt : ∀ e ∈ l, toT (e - m) < R := by
    intro e he
    have := hbound e he
    rw [hshval e he]
    omega
  have hmapnodup : (l.map (fun e => toT (e - m))).Nodup := by
    apply List.Nodup.map_on _ hnodup
    intro a ha c hc hac
    have h1 := (hsh a ha c hc).mp (le_of_eq hac)
    have h2 := (hsh c hc a ha).mp (le_of_eq hac.symm)
    omega
  have hnR : l.length ≤ R := by
    have := length_le_of_nodup_of_lt _ R hmapnodup (by
      intro v hv
      obtain ⟨e, he, hve⟩ := List.mem_map.mp hv
      rw [← hve]; exact hshlt e he)
    rw [List.length_map] at this
    exact this
  have hb1 : 1 ≤ Nat.clog 2 R := Nat.clog_pos (by decide) (by omega)
  have hb29 : Nat.clog 2 R ≤ 29 := (Nat.le_pow_iff_clog_le (by decide)).mp hRle
  have hRpow : R ≤ 2 ^ Nat.clog 2 R := Nat.le_pow_clog (by decide) R
  have hn64 : l.length ≤ 64 := by
    have : l.length * 1 ≤ l.length * (Nat.clog 2 R + 1) := Nat.mul_le_mul_left _ (by omega)
    omega
  have hnmod : l.length % wordMod = l.length := by
    rw [hW]; exact Nat.mod_eq_of_lt (by omega)
  have hother : (l.length + (R + wordMod - l.length) % wordMod) % wordMod = R := by
    rw [hW]; omega
  have hclog : ceilLog2 R = Nat.clog 2 R := ceilLog2_eq_clog R (by omega)
  have hsome : ∃ v, detail.constructFrom (l.map (fun e => toT (e - m)))
      ((R + wordMod - l.length) % wordMod) = some v := by
    cases hc : detail.constructFrom (l.map (fun e => toT (e - m)))
        ((R + wordMod - l.length) % wordMod) with
    | some v => exact ⟨v, rfl⟩
    | none =>
      exfalso
      rw [constructFrom_eq_none_iff, List.length_map, hnmod, construct_eq_none_iff,
        overCapacity_initVec, hother, hclog, hW,
        Nat.mod_eq_of_lt (show Nat.clog 2 R + 1 < 2 ^ 64 by omega),
        Nat.mod_eq_of_lt (show l.length * (Nat.clog 2 R + 1) < 2 ^ 64 by omega)] at hc
      omega
  obtain ⟨v, hv⟩ := hsome
  have hholds := constructFrom_holds (l.map (fun e => toT (e - m)))
    ((R + wordMod - l.length) % wordMod) (Nat.clog 2 R) v hv
    (by rw [List.length_map]; omega)
    (by rw [List.length_map, hother]; exact hclog) (by omega)
    (by rw [List.length_map]; exact le_trans hnR hRpow)
    (by
      intro e he
      obtain ⟨a, ha, hae⟩ := List.mem_map.mp he
      rw [← hae]
      calc toT (a - m) < R := hshlt a ha
        _ ≤ 2 ^ Nat.clog 2 R := hRpow
        _ ≤ 2 ^ (Nat.clog 2 R + 1) := Nat.pow_le_pow_right (by decide) (Nat.le_succ _))
  rw [List.length_map] at hholds
  obtain ⟨hH, hvb, hvk⟩ := hholds
  have hinv : LoopInv l (fun e => toT (e - m)) 0 l v :=
    { perm := List.Perm.refl l, holds := hH, placed := fun j hj => absurd hj (Nat.not_lt_zero j),
      cursor := Nat.zero_le _, size := hvk, bits := by rw [hvb]; exact hb1,
      small := fun e he => by rw [hvb]; exact lt_of_lt_of_le (hshlt e he) hRpow }
  have hU := unplaced_card_le l l
  obtain ⟨out, total, hloop, hperm, hplaced, hzero, hpos⟩ :=
    placementLoop_correct l (fun e => toT (e - m)) hnodup hsh fuel 0 l v 0 hinv (by omega)
  have hsorted := sorted_of_placed l out hperm hplaced
  refine ⟨out, total, ?_, hperm, hsorted, ?_, ?_, ?_⟩
  · rw [← hl, linearRankSort_true_cons, hm, hM, hl, toT_of_lt (M - m + 1) (by omega) (by omega),
      hR, hnmod, hv]
    exact hloop
  · by_cases h0 : (unplaced l l).card = 0
    · have := (hzero h0).2; omega
    · have := hpos (Nat.pos_of_ne_zero h0); omega
  · constructor
    · intro ht
      by_cases h0 : (unplaced l l).card = 0
      · rw [← (hzero h0).1]; exact hsorted
      · have := hpos (Nat.pos_of_ne_zero h0); omega
    · intro hs
      have heq : out = l := List.eq_of_perm_of_sorted hperm hsorted hs
      rw [heq] at hplaced
      exact (hzero (unplaced_card_zero l l hplaced)).2
  · intro hs
    exact List.eq_of_perm_of_sorted hperm hsorted hs

/-- The invariant `LoopInv` holds when the placement loop is entered: for at
least two pairwise distinct elements with range at most `2 ^ 29` within
capacity the constructor succeeds, slot `p` of the rank vector holds the
shifted value of the element at position `p`, the shift preserves the order,
and the call continues with the placement loop at cursor `0`. -/
theorem linearRankSort_initial_inv (x : Int) (xs : List Int)
    (hnodup : (x :: xs).Nodup) (htwo : 2 ≤ (x :: xs).length)
    (hrange : maxElement x xs - minElement x xs + 1 ≤ 2 ^ 29)
    (hcap : (x :: xs).length *
      (Nat.clog 2 (maxElement x xs - minElement x xs + 1).toNat + 1) ≤ 64) :
    ∃ v, LoopInv (x :: xs) (fun e => toT (e - minElement x xs)) 0 (x :: xs) v ∧
      (∀ a ∈ x :: xs, ∀ c ∈ x :: xs,
        (toT (a - minElement x xs) ≤ toT (c - minElement x xs) ↔ a ≤ c)) ∧
      ∀ fuel, linearRankSort true fuel (x :: xs)
        = placementLoop fuel (x :: xs).length 0 (x :: xs) v 0 := by
  have hW : wordMod = 2 ^ 64 := rfl
  have hmM : minElement x xs ≤ maxElement x xs :=
    le_trans (minElement_le x xs) (le_maxElement x xs)
  generalize hm : minElement x xs = m at *
  generalize hM : maxElement x xs = M at *
  generalize hR : (M - m + 1).toNat = R at *
  generalize hl : x :: xs = l at *
  have hRle : R ≤ 2 ^ 29 := by omega
  have hbound : ∀ e ∈ l, m ≤ e ∧ e ≤ M := by
    intro e he
    rw [← hl] at he
    rw [← hm, ← hM]
    exact ⟨minElement_le_of_mem x xs e he, le_maxElement_of_mem x xs e he⟩
  have hshval : ∀ e ∈ l, toT (e - m) = (e - m).toNat := by
    intro e he
    have := hbound e he
    exact toT_of_lt _ (by omega) (by omega)
  have hsh : ∀ a ∈ l, ∀ c ∈ l, (toT (a - m) ≤ toT (c - m) ↔ a ≤ c) := by
    intro a ha c hc
    have h1 := hbound a ha
    have h2 := hbound c hc
    rw [hshval a ha, hshval c hc]
    omega
  have hshlt : ∀ e ∈ l, toT (e - m) < R := by
    intro e he
    have := hbound e he
    rw [hshval e he]
    omega
  have hmapnodup : (l.map (fun e => toT (e - m))).Nodup := by
    apply List.Nodup.map_on _ hnodup
    intro a ha c hc hac
    have h1 := (hsh a ha c hc).mp (le_of_eq hac)
    have h2 := (hsh c hc a ha).mp (le_of_eq hac.symm)
    omega
  have hnR : l.length ≤ R := by
    have := length_le_of_nodup_of_lt _ R hmapnodup (by
      intro v hv
      obtain ⟨e, he, hve⟩ := List.mem_map.mp hv
      rw [← hve]; exact hshlt e he)
    rw [List.length_map] at this
    exact this
  have hb1 : 1 ≤ Nat.clog 2 R := Nat.clog_pos (by decide) (by omega)
  have hb29 : Nat.clog 2 R ≤ 29 := (Nat.le_pow_iff_clog_le (by decide)).mp hRle
  have hRpow : R ≤ 2 ^ Nat.clog 2 R := Nat.le_pow_clog (by decide) R
  have hn64 : l.length ≤ 64 := by
    have : l.length * 1 ≤ l.length * (Nat.clog 2 R + 1) := Nat.mul_le_mul_left _ (by omega)
    omega
  have hnmod : l.length % wordMod = l.length := by
    rw [hW]; exact Nat.mod_eq_of_lt (by omega)
  have hother : (l.length + (R + wordMod - l.length) % wordMod) % wordMod = R := by
    rw [hW]; omega
  have hclog : ceilLog2 R = Nat.clog 2 R := ceilLog2_eq_clog R (by omega)
  have hsome : ∃ v, detail.constructFrom (l.map (fun e => toT (e - m)))
      ((R + wordMod - l.length) % wordMod) = some v := by
    cases hc : detail.constructFrom (l.map (fun e => toT (e - m)))
        ((R + wordMod - l.length) % wordMod) with
    | some v => exact ⟨v, rfl⟩
    | none =>
      exfalso
      rw [constructFrom_eq_none_iff, List.length_map, hnmod, construct_eq_none_iff,
        overCapacity_initVec, hother, hclog, hW,
        Nat.mod_eq_of_lt (show Nat.clog 2 R + 1 < 2 ^ 64 by omega),
        Nat.mod_eq_of_lt (show l.length * (Nat.clog 2 R + 1) < 2 ^ 64 by omega)] at hc
      omega
  obtain ⟨v, hv⟩ := hsome
  have hholds := constructFrom_holds (l.map (fun e => toT (e - m)))
    ((R + wordMod - l.length) % wordMod) (Nat.clog 2 R) v hv
    (by rw [List.length_map]; omega)
    (by rw [List.length_map, hother]; exact hclog) (by omega)
    (by rw [List.length_map]; exact le_trans hnR hRpow)
    (by
      intro e he
      obtain ⟨a, ha, hae⟩ := List.mem_map.mp he
      rw [← hae]
      calc toT (a - m) < R := hshlt a ha
        _ ≤ 2 ^ Nat.clog 2 R := hRpow
        _ ≤ 2 ^ (Nat.clog 2 R + 1) := Nat.pow_le_pow_right (by decide) (Nat.le_succ _))
  rw [List.length_map] at hholds
  obtain ⟨hH, hvb, hvk⟩ := hholds
  have hinv : LoopInv l (fun e => toT (e - m)) 0 l v :=
    { perm := List.Perm.refl l, holds := hH, placed := fun j hj => absurd hj (Nat.not_lt_zero j),
      cursor := Nat.zero_le _, size := hvk, bits := by rw [hvb]; exact hb1,
      small := fun e he => by rw [hvb]; exact lt_of_lt_of_le (hshlt e he) hRpow }
  refine ⟨v, hinv, hsh, ?_⟩
  intro fuel
  rw [← hl, linearRankSort_true_cons, hm, hM, hl, toT_of_lt (M - m + 1) (by omega) (by omega),
    hR, hnmod, hv]
/-- Construction from a sequence with range at most `2 ^ 29` within capacity
(duplicates allowed, one element allowed): the constructor succeeds,
`get(i)` is `e_i - m` for every position, `size()` is `n`, and `mul` is the
one of `ConstTimeRankVec(n, r - n)` before the payload was assigned. -/
theorem constructFrom_stores_in_order (x : Int) (xs : List Int)
    (hrange : maxElement x xs - minElement x xs + 1 ≤ 2 ^ 29)
    (hcap : (x :: xs).length *
      (Nat.clog 2 (maxElement x xs - minElement x xs + 1).toNat + 1) ≤ 64) :
    ∃ v v0,
      constructFrom ((x :: xs).map (fun e => toT (e - minElement x xs)))
        ((toT (maxElement x xs - minElement x xs + 1) + wordMod - (x :: xs).length % wordMod)
          % wordMod) = some v ∧
      construct (x :: xs).length
        ((toT (maxElement x xs - minElement x xs + 1) + wordMod - (x :: xs).length % wordMod)
          % wordMod) = some v0 ∧
      v.mul = v0.mul ∧ v.size = (x :: xs).length ∧
      ∀ i, i < (x :: xs).length → (v.get i : Int) = (x :: xs).getD i 0 - minElement x xs := by
  have hW : wordMod = 2 ^ 64 := rfl
  have hmM : minElement x xs ≤ maxElement x xs :=
    le_trans (minElement_le x xs) (le_maxElement x xs)
  have hbound : ∀ e ∈ x :: xs, minElement x xs ≤ e ∧ e ≤ maxElement x xs :=
    fun e he => ⟨minElement_le_of_mem x xs e he, le_maxElement_of_mem x xs e he⟩
  generalize hm : minElement x xs = m at *
  generalize hM : maxElement x xs = M at *
  generalize hR : (M - m + 1).toNat = R at *
  generalize hl : x :: xs = l at *
  have hlpos : 0 < l.length := by rw [← hl]; exact Nat.succ_pos _
  have hRle : R ≤ 2 ^ 29 := by omega
  have hR1 : 1 ≤ R := by omega
  have hshval : ∀ e ∈ l, toT (e - m) = (e - m).toNat := by
    intro e he
    have := hbound e he
    exact toT_of_lt _ (by omega) (by omega)
  have hshlt : ∀ e ∈ l, toT (e - m) < R := by
    intro e he
    have := hbound e he
    rw [hshval e he]
    omega
  have hb29 : Nat.clog 2 R ≤ 29 := (Nat.le_pow_iff_clog_le (by decide)).mp hRle
  have hRpow : R ≤ 2 ^ Nat.clog 2 R := Nat.le_pow_clog (by decide) R
  have hn64 : l.length ≤ 64 := by
    have : l.length * 1 ≤ l.length * (Nat.clog 2 R + 1) := Nat.mul_le_mul_left _ (by omega)
    omega
  have hnmod : l.length % wordMod = l.length := by
    rw [hW]; exact Nat.mod_eq_of_lt (by omega)
  have hother : (l.length + (R + wordMod - l.length) % wordMod) % wordMod = R := by
    rw [hW]; omega
  have hclog : ceilLog2 R = Nat.clog 2 R := ceilLog2_eq_clog R (by omega)
  have hsome : ∃ v, detail.constructFrom (l.map (fun e => toT (e - m)))
      ((R + wordMod - l.length) % wordMod) = some v := by
    cases hc : detail.constructFrom (l.map (fun e => toT (e - m)))
        ((R + wordMod - l.length) % wordMod) with
    | some v => exact ⟨v, rfl⟩
    | none =>
      exfalso
      rw [constructFrom_eq_none_iff, List.length_map, hnmod, construct_eq_none_iff,
        overCapacity_initVec, hother, hclog, hW,
        Nat.mod_eq_of_lt (show Nat.clog 2 R + 1 < 2 ^ 64 by omega),
        Nat.mod_eq_of_lt (show l.length * (Nat.clog 2 R + 1) < 2 ^ 64 by omega)] at hc
      omega
  obtain ⟨v, hv⟩ := hsome
  have hpacked := constructFrom_packed (l.map (fun e => toT (e - m)))
    ((R + wordMod - l.length) % wordMod) (Nat.clog 2 R) v hv
    (by rw [List.length_map]; omega)
    (by rw [List.length_map, hother]; exact hclog) (by omega)
    (by rw [List.length_map]; exact hcap)
    (by
      intro e he
      obtain ⟨a, ha, hae⟩ := List.mem_map.mp he
      rw [← hae]
      calc toT (a - m) < R := hshlt a ha
        _ ≤ 2 ^ Nat.clog 2 R := hRpow
        _ ≤ 2 ^ (Nat.clog 2 R + 1) := Nat.pow_le_pow_right (by decide) (Nat.le_succ _))
  rw [List.length_map] at hpacked
  obtain ⟨hP, hvb, hvk, hmul, v0, hv0, hmul0⟩ := hpacked
  have htoT : toT (M - m + 1) = R := by
    rw [toT_of_lt (M - m + 1) (by omega) (by omega), hR]
  rw [htoT, hnmod]
  refine ⟨v, v0, hv, hv0, hmul0, hvk, ?_⟩
  intro i hi
  have hmem : l.getD i 0 ∈ l := getD_mem l i hi
  have := hbound _ hmem
  rw [hP.get_eq i (by rw [hvk]; exact hi), List.getD_eq_getElem _ 0
    (by rw [List.length_map]; exact hi), List.getElem_map, ← List.getD_eq_getElem _ 0 hi,
    hshval _ hmem]
  omega
/-- With at least three pairwise distinct elements the capacity constraint
alone puts the input in the range where `linearRankSort_correct` applies:
`n ≥ 3` and `n * (b + 1) ≤ 64` force `b ≤ 20`. -/
theorem linearRankSort_correct_of_three (fuel : Nat) (x : Int) (xs : List Int)
    (hnodup : (x :: xs).Nodup) (hthree : 3 ≤ (x :: xs).length)
    (hcap : (x :: xs).length *
      (Nat.clog 2 (maxElement x xs - minElement x xs + 1).toNat + 1) ≤ 64)
    (hfuel : 2 * (x :: xs).length < fuel) :
    ∃ out swaps, linearRankSort true fuel (x :: xs) = Outcome.done out swaps ∧
      out.Perm (x :: xs) ∧ out.Sorted (fun a c => a < c) ∧
      swaps ≤ (x :: xs).length - 1 ∧
      (swaps = 0 ↔ (x :: xs).Sorted (fun a c => a < c)) ∧
      ((x :: xs).Sorted (fun a c => a < c) → out = x :: xs) := by
  apply linearRankSort_correct fuel x xs hnodup (by omega) _ hcap hfuel
  have hb : Nat.clog 2 (maxElement x xs - minElement x xs + 1).toNat ≤ 20 := by
    by_contra hlt
    have h1 : 3 * 22 ≤ (x :: xs).length *
        (Nat.clog 2 (maxElement x xs - minElement x xs + 1).toNat + 1) :=
      Nat.mul_le_mul hthree (by omega)
    omega
  have hR : (maxElement x xs - minElement x xs + 1).toNat ≤ 2 ^ 20 :=
    (Nat.le_pow_iff_clog_le (by decide)).mpr hb
  have hself := Int.self_le_toNat (maxElement x xs - minElement x xs + 1)
  have h20 : ((2 : Int) ^ 20) ≤ 2 ^ 29 := by norm_num
  have hcast : (((maxElement x xs - minElement x xs + 1).toNat : Nat) : Int) ≤ 2 ^ 20 := by
    exact_mod_cast hR
  omega

/-! ## Slots and ranks of a constructed vector -/

/-- On a vector with `b + 1 ≤ 30`, `erase(i)` clears field `i` of the data
word and no other field. -/
theorem Packed.erase_packed {v : ConstTimeRankVec} {vals : List Nat} (h : Packed v vals)
    (i : Nat) (hi : i < v.k) : Packed (v.erase i) (vals.set i 0) := by
  have hw : 0 < v.b + 1 := Nat.succ_pos _
  have hW : wordMod = 2 ^ 64 := rfl
  have hsmall : ∀ x ∈ vals.set i 0, x < 2 ^ (v.b + 1) := by
    intro x hx
    rcases mem_set_getD _ _ _ _ hx with h1 | h1
    · rw [h1]; exact Nat.two_pow_pos _
    · exact h.small x h1
  have hend : (v.b + 1) * i + (v.b + 1) ≤ 64 := by
    have := h.fits
    have h2 : (v.b + 1) * (i + 1) ≤ (v.b + 1) * v.k := Nat.mul_le_mul_left _ hi
    rw [Nat.mul_succ] at h2
    rw [Nat.mul_comm (v.b + 1) v.k] at h2
    omega
  have hlt : (2 ^ (v.b + 1) - 1) <<< ((v.b + 1) * i) < 2 ^ 64 := by
    rw [Nat.shiftLeft_eq]
    calc (2 ^ (v.b + 1) - 1) * 2 ^ ((v.b + 1) * i) < 2 ^ (v.b + 1) * 2 ^ ((v.b + 1) * i) :=
          Nat.mul_lt_mul_of_pos_right (Nat.sub_lt (Nat.two_pow_pos _) Nat.one_pos)
            (Nat.two_pow_pos _)
      _ = 2 ^ ((v.b + 1) * i + (v.b + 1)) := by rw [← Nat.pow_add, Nat.add_comm]
      _ ≤ 2 ^ 64 := Nat.pow_le_pow_right (by decide) hend
  refine
    { width := h.width, mask := h.mask, size := ?_, fits := h.fits,
      small := hsmall, data := ?_ }
  · rw [List.length_set]; exact h.size
  · show v.data &&& (wordMod - 1 - (v.bMod <<< v.offset i) % wordMod)
      = pack (v.b + 1) (vals.set i 0)
    have hcompl : 2 ^ 64 - 1 - (2 ^ (v.b + 1) - 1) <<< ((v.b + 1) * i)
        = 2 ^ 64 - ((2 ^ (v.b + 1) - 1) <<< ((v.b + 1) * i) + 1) := by omega
    rw [h.offset_eq i (le_of_lt hi), h.mask, hW, Nat.mod_eq_of_lt hlt, h.data, hcompl]
    apply Nat.eq_of_testBit_eq
    intro n
    rw [Nat.testBit_and, Nat.testBit_two_pow_sub_succ hlt, Nat.testBit_shiftLeft,
      Nat.testBit_two_pow_sub_one, pack_testBit _ hw _ h.small,
      pack_testBit _ hw _ hsmall, getD_set]
    have hilen : i < vals.length := by rw [h.size]; exact hi
    by_cases hq : i = n / (v.b + 1)
    · have hge : (v.b + 1) * i ≤ n := by rw [hq]; exact Nat.mul_div_le n _
      have hsub : n - (v.b + 1) * i < v.b + 1 := by
        have := Nat.div_add_mod n (v.b + 1)
        have hm := Nat.mod_lt n hw
        rw [← hq] at this
        omega
      rw [if_pos ⟨hq, hilen⟩]
      simp [hge, hsub]
    · rw [if_neg (fun hc => hq hc.1)]
      have hmask : (decide ((v.b + 1) * i ≤ n) && decide (n - (v.b + 1) * i < v.b + 1))
          = false := by
        by_cases hge : (v.b + 1) * i ≤ n
        · have hbig : v.b + 1 ≤ n - (v.b + 1) * i := by
            by_contra hlt2
            apply hq
            have h5 : n = (v.b + 1) * i + (n - (v.b + 1) * i) := by omega
            rw [h5, Nat.mul_add_div hw, Nat.div_eq_of_lt (not_le.mp hlt2), Nat.add_zero]
          simp [hge]; omega
        · simp [hge]
      rw [hmask]
      by_cases hn : n < 64
      · simp [hn]
      · have hidx : vals.length ≤ n / (v.b + 1) := by
          rw [h.size, Nat.le_div_iff_mul_le hw]
          have := h.fits
          omega
        have h0 : vals.getD (n / (v.b + 1)) 0 = 0 := List.getD_eq_default _ _ hidx
        rw [h0]; simp

/-- On a vector with `b + 1 ≤ 30`, after `erase(i)` slot `i` reads `0` and
every other slot reads what it read before; erasing again changes nothing,
and `mul` and `k` are untouched. -/
theorem Packed.erase_get {v : ConstTimeRankVec} {vals : List Nat} (h : Packed v vals)
    (i : Nat) (hi : i < v.k) :
    (v.erase i).get i = 0 ∧
      (∀ j, j < v.k → j ≠ i → (v.erase i).get j = v.get j) ∧
      (v.erase i).erase i = v.erase i ∧ (v.erase i).mul = v.mul ∧ (v.erase i).k = v.k := by
  have hp := h.erase_packed i hi
  have hlen : i < vals.length := by rw [h.size]; exact hi
  have hk : (v.erase i).k = v.k := rfl
  have hpp := hp.erase_packed i (by rw [hk]; exact hi)
  refine ⟨?_, ?_, ?_, rfl, rfl⟩
  · rw [hp.get_eq i (by rw [hk]; exact hi), getD_set, if_pos ⟨rfl, hlen⟩]
  · intro j hj hji
    rw [hp.get_eq j (by rw [hk]; exact hj), h.get_eq j hj, getD_set,
      if_neg (fun hc => hji hc.1.symm)]
  · have hd : ((v.erase i).erase i).data = (v.erase i).data := by
      rw [hpp.data, hp.data, List.set_set]
      rfl
    have hstruct : ∀ a c : ConstTimeRankVec, a.b = c.b → a.mul = c.mul → a.bMod = c.bMod →
        a.k = c.k → a.data = c.data → a = c := by
      intro a c h1 h2 h3 h4 h5
      cases a; cases c; simp only at h1 h2 h3 h4 h5
      subst h1 h2 h3 h4 h5; rfl
    exact hstruct _ _ rfl rfl rfl rfl hd
/-- On a vector with `b + 1 ≤ 30`, `set(i, e)` with `e < 2 ^ (b+1)` writes
`get(i) XOR e` into slot `i` and leaves every other slot, `mul` and `k` as they
were. -/
theorem Packed.set_get {v : ConstTimeRankVec} {vals : List Nat} (h : Packed v vals)
    (i e : Nat) (hi : i < v.k) (he : e < 2 ^ (v.b + 1)) :
    (v.set i e).get i = v.get i ^^^ e ∧
      (∀ j, j < v.k → j ≠ i → (v.set i e).get j = v.get j) ∧
      (v.set i e).mul = v.mul ∧ (v.set i e).k = v.k := by
  have hp := h.set_packed i e hi he
  have hk : (v.set i e).k = v.k := set_k v i e
  have hlen : i < vals.length := by rw [h.size]; exact hi
  refine ⟨?_, ?_, set_mul v i e, hk⟩
  · rw [hp.get_eq i (by rw [hk]; exact hi), h.get_eq i hi, getD_set, if_pos ⟨rfl, hlen⟩]
  · intro j hj hji
    rw [hp.get_eq j (by rw [hk]; exact hj), h.get_eq j hj, getD_set,
      if_neg (fun hc => hji hc.1.symm)]

/-- On a vector in the state `Packed` (so `b + 1 ≤ 30`) `swap(i, j)` exchanges
the two slots, also for `i = j`, leaves every other slot alone and does not
touch `mul`, `b`, `bMod` and `k`. -/
theorem Packed.swap_get {v : ConstTimeRankVec} {vals : List Nat} (h : Packed v vals)
    (i j : Nat) (hi : i < v.k) (hj : j < v.k) :
    (v.swap i j).get i = v.get j ∧ (v.swap i j).get j = v.get i ∧
      (∀ m, m < v.k → m ≠ i → m ≠ j → (v.swap i j).get m = v.get m) ∧
      (v.swap i j).mul = v.mul ∧ (v.swap i j).b = v.b ∧ (v.swap i j).bMod = v.bMod ∧
      (v.swap i j).k = v.k := by
  have hs := h.swap_packed i j hi hj
  have hil : i < vals.length := by rw [h.size]; exact hi
  have hjl : j < vals.length := by rw [h.size]; exact hj
  refine ⟨?_, ?_, ?_, rfl, rfl, rfl, rfl⟩
  · rw [hs.get_eq i hi, h.get_eq j hj, getD_swapAt vals i j i hil hjl]
    by_cases hij : i = j
    · rw [if_pos hij, hij]
    · rw [if_neg hij, if_pos rfl]
  · rw [hs.get_eq j hj, h.get_eq i hi, getD_swapAt vals i j j hil hjl, if_pos rfl]
  · intro m hm hmi hmj
    rw [hs.get_eq m hm, h.get_eq m hm, getD_swapAt vals i j m hil hjl, if_neg hmj, if_neg hmi]

theorem countP_range_getD (l : List Nat) (p : Nat → Bool) :
    (List.range l.length).countP (fun j => p (l.getD j 0)) = l.countP p := by
  induction l with
  | nil => rfl
  | cons x xs ih =>
    rw [List.length_cons, List.range_succ_eq_map, List.countP_cons, List.countP_cons,
      List.countP_map, ← ih]
    rfl

theorem countP_le_eq_nat (l : List Nat) (a : Nat) (hnodup : l.Nodup) (ha : a ∈ l) :
    l.countP (fun y => decide (y ≤ a)) = l.countP (fun y => decide (y < a)) + 1 := by
  induction l with
  | nil => exact absurd ha (List.not_mem_nil a)
  | cons y ys ih =>
    rw [List.countP_cons, List.countP_cons]
    have hy : y ∉ ys := (List.nodup_cons.mp hnodup).1
    have hys : ys.Nodup := (List.nodup_cons.mp hnodup).2
    by_cases hya : y = a
    · have hcong : ys.countP (fun z => decide (z ≤ a)) = ys.countP (fun z => decide (z < a)) := by
        apply List.countP_congr
        intro z hz
        have hne : z ≠ a := fun hc => hy (by rw [hya, ← hc]; exact hz)
        simp only [decide_eq_true_eq]
        omega
      rw [hcong, hya]
      simp
    · have hmem : a ∈ ys := by
        rcases List.mem_cons.mp ha with h1 | h1
        · exact absurd h1.symm hya
        · exact h1
      rw [ih hys hmem]
      by_cases hle : y ≤ a
      · have hlt : y < a := lt_of_le_of_ne hle hya
        simp [hle, hlt]
      · have hlt : ¬ y < a := fun hc => hle (le_of_lt hc)
        simp [hle, hlt]

theorem countP_drop_range (l : List Nat) (p : Nat → Bool) (i : Nat) :
    (l.drop i).countP p
      = (List.range l.length).countP (fun j => decide (i ≤ j) && p (l.getD j 0)) := by
  induction l generalizing i with
  | nil => simp
  | cons x xs ih =>
    rw [List.length_cons, List.range_succ_eq_map, List.countP_cons, List.countP_map]
    cases i with
    | zero =>
      rw [List.drop_zero, List.countP_cons, ← List.drop_zero xs, ih 0]
      simp [Function.comp_def]
    | succ m =>
      rw [List.drop_succ_cons, ih m]
      simp [Function.comp_def]

/-- With pairwise distinct values, `rank_bigger(i)` is the number of slots `j`
in `(i, k)` with `get(j) < get(i)`. -/
theorem Holds.rank_bigger_count {v : ConstTimeRankVec} {vals : List Nat} (h : Holds v vals)
    (hb : 1 ≤ v.b) (hvals : ∀ x ∈ vals, x < 2 ^ v.b) (hnodup : vals.Nodup)
    (i : Nat) (hi : i < v.k) :
    v.rank_bigger i
      = (List.range v.k).countP (fun j => decide (i < j) && decide (v.get j < v.get i)) := by
  have hilen : i < vals.length := by rw [h.packed.size]; exact hi
  have hsplit : vals.drop i = vals.getD i 0 :: vals.drop (i + 1) := by
    rw [List.getD_eq_getElem _ _ hilen]
    exact List.drop_eq_getElem_cons hilen
  have hnd : (vals.drop i).Nodup := List.Nodup.sublist (List.drop_sublist i vals) hnodup
  rw [h.rank_bigger_drop hb hvals i hi,
    countP_le_eq_nat (vals.drop i) _ hnd (by rw [hsplit]; exact List.mem_cons_self _ _),
    Nat.add_sub_cancel, hsplit, List.countP_cons_of_neg _ _ (by simp),
    countP_drop_range vals _ (i + 1), h.packed.size]
  apply List.countP_congr
  intro j hj
  rw [List.mem_range] at hj
  rw [h.packed.get_eq j hj, h.packed.get_eq i hi]
  simp [Nat.succ_le_iff]
/-- Rank correctness where the source computes what it means to compute:
`ConstTimeRankVec(k, extra)` with `2 ≤ k + extra ≤ 2 ^ 29`, pairwise distinct
values below `k + extra` assigned to the slots in order.  Then `rank(i)` is the
number of slots `j` in `[0, k)` with `get(j) < get(i)`, and `get(j)` is the
assigned value. -/
theorem rank_counts_smaller (elems : List Nat) (other : Nat) (v : ConstTimeRankVec)
    (hc : constructFrom elems other = some v) (h2 : 2 ≤ elems.length + other)
    (hle : elems.length + other ≤ 2 ^ 29) (hnodup : elems.Nodup)
    (hlt : ∀ e ∈ elems, e < elems.length + other) (i : Nat) (hi : i < elems.length) :
    v.rank i = (List.range elems.length).countP (fun j => decide (v.get j < v.get i)) ∧
      ∀ j, j < elems.length → v.get j = elems.getD j 0 := by
  have hW : wordMod = 2 ^ 64 := rfl
  have hmod : (elems.length + other) % wordMod = elems.length + other := by
    rw [hW]; exact Nat.mod_eq_of_lt (by omega)
  have hclog : ceilLog2 (elems.length + other) = Nat.clog 2 (elems.length + other) :=
    ceilLog2_eq_clog _ (by omega)
  have hb1 : 1 ≤ Nat.clog 2 (elems.length + other) := Nat.clog_pos (by decide) h2
  have hb29 : Nat.clog 2 (elems.length + other) ≤ 29 :=
    (Nat.le_pow_iff_clog_le (by decide)).mp hle
  have hpow : elems.length + other ≤ 2 ^ Nat.clog 2 (elems.length + other) :=
    Nat.le_pow_clog (by decide) _
  have hsmall : ∀ e ∈ elems, e < 2 ^ Nat.clog 2 (elems.length + other) :=
    fun e he => lt_of_lt_of_le (hlt e he) hpow
  obtain ⟨hH, hvb, hvk⟩ := constructFrom_holds elems other _ v hc (by omega)
    (by rw [hmod]; exact hclog) (by omega) (by omega)
    (fun e he => lt_of_lt_of_le (hsmall e he) (Nat.pow_le_pow_right (by decide) (Nat.le_succ _)))
  have hget : ∀ j, j < elems.length → v.get j = elems.getD j 0 :=
    fun j hj => hH.packed.get_eq j (by rw [hvk]; exact hj)
  refine ⟨?_, hget⟩
  have hmem : elems.getD i 0 ∈ elems := by
    rw [List.getD_eq_getElem _ 0 hi]; exact List.getElem_mem _
  rw [hH.rank_count (by rw [hvb]; exact hb1) (by rw [hvb]; exact hsmall) i (by rw [hvk]; exact hi),
    countP_le_eq_nat elems _ hnodup hmem, Nat.add_sub_cancel,
    ← countP_range_getD elems (fun y => decide (y < elems.getD i 0))]
  apply List.countP_congr
  intro j hj
  rw [List.mem_range] at hj
  rw [hget j hj, hget i hi]

/-- The shifted rank where the source computes what it means to compute:
`ConstTimeRankVec(k, extra)` with `k + extra ≥ 2` and `b + 1 ≤ 30`, pairwise
distinct values below `2 ^ b` assigned to the slots in order.  Then
`rank_bigger(i)` is the number of slots `j` in `(i, k)` with
`get(j) < get(i)`. -/
theorem rank_bigger_counts_later_smaller (elems : List Nat) (other : Nat) (v : ConstTimeRankVec)
    (hc : constructFrom elems other = some v) (h2 : 2 ≤ elems.length + other)
    (hw : Nat.clog 2 (elems.length + other) + 1 ≤ 30) (hnodup : elems.Nodup)
    (hlt : ∀ e ∈ elems, e < 2 ^ Nat.clog 2 (elems.length + other))
    (i : Nat) (hi : i < elems.length) :
    v.b = Nat.clog 2 (elems.length + other) ∧
      v.rank_bigger i = (List.range elems.length).countP
        (fun j => decide (i < j) && decide (v.get j < v.get i)) := by
  have hW : wordMod = 2 ^ 64 := rfl
  have hpow : elems.length + other ≤ 2 ^ Nat.clog 2 (elems.length + other) :=
    Nat.le_pow_clog (by decide) _
  have h29 : 2 ^ Nat.clog 2 (elems.length + other) ≤ 2 ^ 29 :=
    Nat.pow_le_pow_right (by decide) (by omega)
  have hmod : (elems.length + other) % wordMod = elems.length + other := by
    rw [hW]; exact Nat.mod_eq_of_lt (by omega)
  have hclog : ceilLog2 (elems.length + other) = Nat.clog 2 (elems.length + other) :=
    ceilLog2_eq_clog _ (by omega)
  have hb1 : 1 ≤ Nat.clog 2 (elems.length + other) := Nat.clog_pos (by decide) h2
  obtain ⟨hH, hvb, hvk⟩ := constructFrom_holds elems other _ v hc (by omega)
    (by rw [hmod]; exact hclog) hw (by omega)
    (fun e he => lt_of_lt_of_le (hlt e he) (Nat.pow_le_pow_right (by decide) (Nat.le_succ _)))
  refine ⟨hvb, ?_⟩
  rw [hH.rank_bigger_count (by rw [hvb]; exact hb1) (by rw [hvb]; exact hlt) hnodup i
    (by rw [hvk]; exact hi), hvk]

/-! ## Instances of the general theorems -/

theorem clog_86 : Nat.clog 2 86 = 7 :=
  (ceilLog2_eq_clog 86 (by decide)).symm.trans (by decide)

/-- The theorem `linearRankSort_correct` applies to the first demo range
`"The quic"`: its hypotheses hold there. -/
theorem linearRankSort_correct_demo :
    ∃ out swaps, linearRankSort true 17 [84, 104, 101, 32, 113, 117, 105, 99]
        = Outcome.done out swaps ∧
      out.Perm [84, 104, 101, 32, 113, 117, 105, 99] ∧ out.Sorted (fun a c => a < c) ∧
      swaps ≤ ([84, 104, 101, 32, 113, 117, 105, 99] : List Int).length - 1 ∧
      (swaps = 0 ↔ ([84, 104, 101, 32, 113, 117, 105, 99] : List Int).Sorted (fun a c => a < c)) ∧
      (([84, 104, 101, 32, 113, 117, 105, 99] : List Int).Sorted (fun a c => a < c) →
        out = [84, 104, 101, 32, 113, 117, 105, 99]) :=
  linearRankSort_correct 17 84 [104, 101, 32, 113, 117, 105, 99] (by decide) (by decide)
    (by decide)
    (by
      have h : (maxElement 84 [104, 101, 32, 113, 117, 105, 99]
          - minElement 84 [104, 101, 32, 113, 117, 105, 99] + 1).toNat = 86 := by decide
      rw [h, clog_86]
      decide)
    (by decide)

/-- The theorem `rank_counts_smaller` applies to `ConstTimeRankVec(3, 2)`
holding `4, 0, 2`: the ranks are `2, 0, 1`. -/
theorem rank_counts_smaller_instance :
    (constructFrom [4, 0, 2] 2).map (fun v => (v.rank 0, v.rank 1, v.rank 2)) = some (2, 0, 1) ∧
      ∀ v, constructFrom [4, 0, 2] 2 = some v →
        v.rank 0 = (List.range 3).countP (fun j => decide (v.get j < v.get 0)) :=
  ⟨by decide, fun v hv =>
    (rank_counts_smaller [4, 0, 2] 2 v hv (by decide) (by decide) (by decide) (by decide) 0
      (by decide)).1⟩

/-- The theorem `linearRankSort_overflow_iff_of_lt` applies to the three
element range `0, 2 ^ 31, 1`, which exceeds the capacity and ends with the
overflow error. -/
theorem linearRankSort_overflow_instance :
    linearRankSort true 7 [0, 2147483648, 1] = Outcome.overflowError :=
  ((linearRankSort_overflow_iff_of_lt 7 0 [2147483648, 1] (by decide) (by decide)).1).mpr (by
    have h : (maxElement 0 [2147483648, 1] - minElement 0 [2147483648, 1] + 1).toNat
        = 2147483649 := by decide
    have hclog : ¬ Nat.clog 2 2147483649 ≤ 31 := fun hle =>
      absurd ((Nat.le_pow_iff_clog_le (by decide)).mpr hle) (by norm_num)
    rw [h]
    have hlen : [(2147483648 : Int), 1].length = 2 := rfl
    rw [hlen]
    omega)

/-- The theorem `linearRankSort_zero_based` applies to the permutation
`2, 0, 1` of `0, 1, 2`; both settings return `0, 1, 2` after two swaps. -/
theorem linearRankSort_zero_based_instance :
    linearRankSort false 7 [2, 0, 1] = linearRankSort true 7 [2, 0, 1] ∧
      linearRankSort false 7 [2, 0, 1] = Outcome.done [0, 1, 2] 2 :=
  ⟨linearRankSort_zero_based 7 3 [2, 0, 1] (by decide), by decide⟩

theorem clog_4 : Nat.clog 2 ([1, 1, 0].length + 1) = 2 := by
  have h : ([1, 1, 0] : List Nat).length + 1 = 4 := rfl
  rw [h, ← ceilLog2_eq_clog 4 (by decide)]
  decide

/-- The values of `rank_bigger` on `ConstTimeRankVec(5, 0)` holding
`2, 0, 4, 1, 3`: the number of later slots with a smaller value. -/
theorem rank_bigger_counts_later_smaller_instance :
    (constructFrom [2, 0, 4, 1, 3] 0).map
        (fun v => (v.b, [v.rank_bigger 0, v.rank_bigger 1, v.rank_bigger 2, v.rank_bigger 3,
          v.rank_bigger 4]))
      = some (3, [2, 0, 2, 0, 0]) := by
  decide
/-- The values of `rank` on `ConstTimeRankVec(3, 1)` holding `1, 1, 0`
(duplicates): the number of slots with a value less than or equal, minus
one. -/
theorem rank_with_duplicates_instance :
    (constructFrom [1, 1, 0] 1).map (fun v => (v.b, [v.rank 0, v.rank 1, v.rank 2]))
      = some (2, [2, 2, 0]) := by
  decide

/-! ## The demonstration program -/

/-- The three calls of `main.cpp`: the ranges `"The quic"`, `"kbrownfxjm"` and
`"psvtlazydg"` (as character codes) come back in ascending order; the first
one is `" Tcehiqu"`. -/
theorem main_sorted_parts :
    linearRankSort true 16 [84, 104, 101, 32, 113, 117, 105, 99]
        = Outcome.done [32, 84, 99, 101, 104, 105, 113, 117] 7 ∧
    linearRankSort true 20 [107, 98, 114, 111, 119, 110, 102, 120, 106, 109]
        = Outcome.done [98, 102, 106, 107, 109, 110, 111, 114, 119, 120] 7 ∧
    linearRankSort true 20 [112, 115, 118, 116, 108, 97, 122, 121, 100, 103]
        = Outcome.done [97, 100, 103, 108, 112, 115, 116, 118, 121, 122] 9 := by
  refine ⟨?_, ?_, ?_⟩ <;> decide

/-! ## Claims C1 to C10 -/

/-- Claim C1 (sorting within the capacity constraint) fails on a one element
range: for every element `x`, the call on `[x]` computes `b = 0`, `bMod = 1`,
so `rank(0)` is `0 - 1` in unsigned arithmetic and the first loop iteration
calls `iter_swap` with the position before `begin`.  The range is not returned
sorted. -/
theorem linearRankSort_single_leaves_range (x : Int) (fuel : Nat) :
    linearRankSort true (fuel + 1) [x] = Outcome.outOfRange 0 (-1) := by
  have h1 : toT (x - x) = 0 := by simp [toT]
  have h2 : toT (x - x + 1) = 1 := by simp [toT]
  have h3 : minElement x [] = x := rfl
  have h4 : maxElement x [] = x := rfl
  rw [linearRankSort_true_cons, h3, h4, List.map_cons, List.map_nil, h1, h2,
    List.length_singleton]
  rfl

/-- Claim C2 (`rank(i)` counts the slots holding a smaller value) fails for
`ConstTimeRankVec(1, 0)` holding the value `0`: the constructor accepts,
`b = 0`, `bMod = 1`, `get(0) = 0`, no slot holds a smaller value, and
`rank(0)` is `2 ^ 64 - 1`. -/
theorem rank_single_slot :
    (constructFrom [0] 0).map (fun v => (v.k, v.b, v.bMod, v.get 0, v.rank 0))
      = some (1, 0, 1, 0, 2 ^ 64 - 1) := by
  decide

/-- Claim C3 (the constructor throws exactly when `k * (b+1) > 64`) fails for
`ConstTimeRankVec(2 ^ 63, 0)`: `b = 63` and `k * (b+1) = 2 ^ 69 > 64`, but the
64 bit product is `0`, the test `k * (b+1) > usableBits` is false and nothing
is thrown.  It also fails for `ConstTimeRankVec(2 ^ 63, 2 ^ 63 + 2)`, where
`k + other` wraps to `2`, `b = 1`, every shift of the initialisers is in range
and the 64 bit product `2 ^ 63 * 2` is `0` again. -/
theorem construct_accepts_wrapped_product :
    ceilLog2 (2 ^ 63 + 0) = 63 ∧ 2 ^ 63 * (ceilLog2 (2 ^ 63 + 0) + 1) > 64 ∧
      (2 ^ 63 * (ceilLog2 (2 ^ 63 + 0) + 1)) % wordMod = 0 ∧
      construct (2 ^ 63) 0 ≠ none ∧
      (initVec (2 ^ 63) (2 ^ 63 + 2)).b = 1 ∧ (initVec (2 ^ 63) (2 ^ 63 + 2)).bMod = 3 ∧
      construct (2 ^ 63) (2 ^ 63 + 2) ≠ none := by
  refine ⟨by decide, by decide, by decide, ?_, by decide, by decide, ?_⟩
  · rw [Ne, construct_eq_none_iff]
    decide
  · rw [Ne, construct_eq_none_iff]
    decide

/-- Claim C4 (the documented capacity table; with `r == n` the largest
accepted `n` is `12`) fails for `n = r = 2 ^ 63`: the check of
`ConstTimeRankVec(n, r - n)` accepts this `n > 12`. -/
theorem capacity_check_accepts_beyond_twelve :
    12 < 2 ^ 63 ∧ overCapacity (initVec (2 ^ 63) (2 ^ 63 - 2 ^ 63)) = false ∧
      (construct (2 ^ 63) (2 ^ 63 - 2 ^ 63)).isSome = true := by
  refine ⟨by decide, by decide, ?_⟩
  rw [Option.isSome_iff_ne_none, Ne, construct_eq_none_iff]
  decide

/-- Claim C5 (`swap` exchanges two slots) fails for `ConstTimeRankVec(2, 2^30 - 2)`
holding `0` and `2`: here `b = 30`, the mask `bMod` is
`static_cast<T>(1 << 31) - 1 = 2 ^ 64 - 2 ^ 31 - 1`, `get(0)` already reads
`2 ^ 32` instead of `0`, and after `swap(0, 1)` neither `get(0)` equals the old
`get(1) = 2` nor `get(1)` the old `get(0)`. -/
theorem swap_wrong_at_field_width_31 :
    (constructFrom [0, 2] (2 ^ 30 - 2)).map
        (fun v => (v.b, v.bMod, v.get 0, v.get 1, (v.swap 0 1).get 0, (v.swap 0 1).get 1))
      = some (30, 2 ^ 64 - 2 ^ 31 - 1, 2 ^ 32, 2, 9223372041149743106, 4294967298) := by
  decide

/-- Claim C6 (at most `n - 1` swaps, none exactly for ascending input) fails on
the one element range `[5]`: whatever number of loop iterations is allowed,
the call never returns normally, so it returns no swap count at all (the
ascending input `[5]` is not left alone with `0` swaps). -/
theorem linearRankSort_single_never_done (fuel : Nat) (seq : List Int) (swaps : Nat) :
    linearRankSort true fuel [5] ≠ Outcome.done seq swaps := by
  cases fuel with
  | zero => exact fun h => Outcome.noConfusion (Eq.trans (Eq.symm h) (by rfl : linearRankSort true 0 [5] = Outcome.outOfFuel))
  | succ m => exact fun h => Outcome.noConfusion (Eq.trans (Eq.symm h) (by rfl : linearRankSort true (m + 1) [5] = Outcome.outOfRange 0 (-1)))

/-- Claim C7 (an ascending range is returned unchanged with zero swaps) fails
on the ascending ranges `[7]` and `[0, 2 ^ 29]`: the first loop iteration
calls `iter_swap` with a position outside the range (`-1`, respectively
`2 ^ 31`). -/
theorem linearRankSort_ascending_leaves_range (fuel : Nat) :
    linearRankSort true (fuel + 1) [7] = Outcome.outOfRange 0 (-1) ∧
      linearRankSort true (fuel + 1) [0, 2 ^ 29] = Outcome.outOfRange 0 (2 ^ 31) :=
  ⟨rfl, rfl⟩

/-- Claim C8 (the overflow error is raised exactly when
`n * (ceil(log2 r) + 1) > 64`; no silent truncation) fails when the range does
not fit `std::size_t`: for the pair `0, 2 ^ 64 + 1` the range `2 ^ 64 + 2` is
stored as `r = 2`, nothing is raised and the call returns normally although
`2 * (ceil(log2 r) + 1) > 64`; for the pair `0, 2 ^ 64 - 1`
(`18446744073709551615`) the range `2 ^ 64` is stored as `r = 0` and nothing is
raised either. -/
theorem linearRankSort_range_truncated (fuel : Nat) :
    linearRankSort true (fuel + 3) [0, 18446744073709551617]
        = Outcome.done [0, 18446744073709551617] 0 ∧
      2 * (Nat.clog 2 (18446744073709551617 + 1) + 1) > 64 ∧
      linearRankSort true (fuel + 1) [0, 18446744073709551615] = Outcome.outOfRange 0 (-1) ∧
      2 * (Nat.clog 2 (18446744073709551615 + 1) + 1) > 64 := by
  have hclog : ∀ x : Nat, 2 ^ 31 < x → 32 ≤ Nat.clog 2 x := by
    intro x hx
    have h : ¬ Nat.clog 2 x ≤ 31 := fun hle =>
      absurd ((Nat.le_pow_iff_clog_le (by decide)).mpr hle) (not_le.mpr hx)
    omega
  have h1 := hclog (18446744073709551617 + 1) (by norm_num)
  have h2 := hclog (18446744073709551615 + 1) (by norm_num)
  exact ⟨rfl, by omega, rfl, by omega⟩

/-- Claim C9 (on a permutation of `0 .. n-1` both settings of
`calculateMinMax` produce `0, 1, ..., n-1`) fails for `n = 1`: on `[0]` neither
setting returns `[0]`; both leave the range in the first loop iteration. -/
theorem linearRankSort_zero_based_single (fuel : Nat) :
    linearRankSort false (fuel + 1) [0] = Outcome.outOfRange 0 (-1) ∧
      linearRankSort true (fuel + 1) [0] = Outcome.outOfRange 0 (-1) :=
  ⟨rfl, rfl⟩

/-- Claim C10 (two elements with range up to `2 ^ 31` are sorted) fails for the
pairs `0, 2 ^ 29` and `2 ^ 29, 0` (range `2 ^ 29 + 1`): `b = 30`, the mask is
`static_cast<T>(1 << 31) - 1 = 2 ^ 64 - 2 ^ 31 - 1`, `rank(0)` is `2 ^ 31` and
the first loop iteration calls `iter_swap` with position `2 ^ 31`. -/
theorem linearRankSort_pair_field_width_31 (fuel : Nat) :
    (constructFrom [0, 2 ^ 29] (2 ^ 29 - 1)).map (fun v => (v.b, v.bMod, v.rank 0))
        = some (30, 2 ^ 64 - 2 ^ 31 - 1, 2 ^ 31) ∧
      linearRankSort true (fuel + 1) [0, 2 ^ 29] = Outcome.outOfRange 0 (2 ^ 31) ∧
      linearRankSort true (fuel + 1) [2 ^ 29, 0] = Outcome.outOfRange 0 (2 ^ 31) :=
  ⟨by decide, rfl, rfl⟩

/-! ## Claims C11 to C20 -/

/-- Claim C11 (sorting a one element sequence is safe: `rank(0)` returns `0`,
zero swaps, no access outside the range, termination) fails for every one
element range `[x]`: the vector built for it has `b = 0`, `bMod = 1`, and
`rank(0)` is `0 - 1 = 2 ^ 64 - 1` in unsigned arithmetic; the first loop
iteration calls `iter_swap` with the position before `begin`, and for no bound
on the number of loop iterations the call returns normally. -/
theorem linearRankSort_single_unsafe (x : Int) (fuel : Nat) :
    (constructFrom [toT (x - x)] 0).map (fun v => (v.b, v.bMod, v.get 0, v.rank 0))
        = some (0, 1, 0, 2 ^ 64 - 1) ∧
      linearRankSort true (fuel + 1) [x] = Outcome.outOfRange 0 (-1) ∧
      ∀ (limit : Nat) (seq : List Int) (swaps : Nat),
        linearRankSort true limit [x] ≠ Outcome.done seq swaps := by
  have h1 : toT (x - x) = 0 := by simp [toT]
  have h2 : toT (x - x + 1) = 1 := by simp [toT]
  have h3 : minElement x [] = x := rfl
  have h4 : maxElement x [] = x := rfl
  have hrun : ∀ limit : Nat, linearRankSort true limit [x]
      = placementLoop limit 1 0 [x] { b := 0, mul := 1, bMod := 1, k := 1, data := 0 } 0 := by
    intro limit
    rw [linearRankSort_true_cons, h3, h4, List.map_cons, List.map_nil, h1, h2,
      List.length_singleton]
    rfl
  refine ⟨by rw [h1]; decide, by rw [hrun]; rfl, ?_⟩
  intro limit seq swaps
  rw [hrun]
  cases limit with
  | zero => exact fun h => Outcome.noConfusion h
  | succ m => exact fun h => Outcome.noConfusion (Eq.trans (Eq.symm h) (by rfl : placementLoop (m + 1) 1 0 [x] { b := 0, mul := 1, bMod := 1, k := 1, data := 0 } 0 = Outcome.outOfRange 0 (-1)))

/-- Claim C12 (every swap of the placement loop puts one more element in its
final position and moves no element that is already there) fails on the one
element range `[5]`, where the element is in its final position (`rankOf` is
`0`) but `rank(0)` is `2 ^ 64 - 1`, so the loop swaps position `0` with the
position before `begin`; and on the two element range `2 ^ 30 - 1, 0`
(`b = 30`), where the element at position `0` has rank `1` but `rank(0)` is
`2 ^ 31` and the swap partner is position `2 ^ 31`, past the end. -/
theorem swap_partner_outside_range (fuel : Nat) :
    rankOf [5] 5 = 0 ∧
      (constructFrom [0] 0).map (fun v => v.rank 0) = some (2 ^ 64 - 1) ∧
      linearRankSort true (fuel + 1) [5] = Outcome.outOfRange 0 (-1) ∧
      rankOf [1073741823, 0] 1073741823 = 1 ∧
      (constructFrom [1073741823, 0] 1073741822).map (fun v => (v.b, v.rank 0))
        = some (30, 2 ^ 31) ∧
      linearRankSort true (fuel + 1) [1073741823, 0] = Outcome.outOfRange 0 (2 ^ 31) :=
  ⟨by decide, by decide, rfl, by decide, by decide, rfl⟩

/-- Claim C13 (after construction from a sequence `get(i) == e_i - m`) fails
for the two element sequence `0, 2 ^ 29`: `r = 2 ^ 29 + 1`,
`ceil(log2 r) = 30`, `2 * 31 <= 64`, the vector is
`ConstTimeRankVec(begin, end, r - 2, x -> x - 0)`, and `get(0)` is `2 ^ 60`
instead of `0`: the mask `bMod` is `static_cast<T>(1 << 31) - 1`, which keeps
the bits above bit `31`. -/
theorem constructFrom_slot_wrong_at_field_width_31 :
    (constructFrom [0, 536870912] 536870911).map
        (fun v => (v.k, v.b, v.bMod, v.get 0, v.get 1))
      = some (2, 30, 2 ^ 64 - 2 ^ 31 - 1, 1152921504606846976, 536870912) := by
  decide

/-- Claim C14 (`set(i, v)` leaves `get(j)` unchanged for `j != i`) fails for
`ConstTimeRankVec(2, 2^30 - 2)` (`b = 30`, accepted since `2 * 31 <= 64`):
both slots read `0`, and after `set(1, 2)` slot `0` reads `2 ^ 32`. -/
theorem set_changes_other_slot_at_field_width_31 :
    (construct 2 1073741822).map
        (fun v => (v.b, v.get 0, v.get 1, (v.set 1 2).get 0, (v.set 1 2).get 1))
      = some (30, 0, 0, 4294967296, 2) := by
  decide

/-- Claim C15 (`erase(i)` leaves `get(j)` unchanged for `j != i`) fails for
`ConstTimeRankVec(2, 2^30 - 2)` (`b = 30`) holding `1` and `2`: `get(1)` is
`2`, and after `erase(0)` it is `0`, because the mask shifted to field `0`
covers the bits of field `1` as well. -/
theorem erase_clears_other_slot_at_field_width_31 :
    (constructFrom [1, 2] 1073741822).map
        (fun v => (v.b, v.get 1, (v.erase 0).get 0, (v.erase 0).get 1))
      = some (30, 2, 0, 0) := by
  decide

/-- Claim C16 (`rank_bigger(i) == rank(i)` and `rank_lower(i) == rank(i)` for
every index) is false: on `ConstTimeRankVec(3, 2)` (`b = 3`) holding the
distinct values `4, 0, 2`, index `2` has `rank(2) = 1`, `rank_bigger(2) = 0`
and `rank_lower(2) = 2 ^ 64 - 1`. -/
theorem rank_variants_differ :
    (constructFrom [4, 0, 2] 2).map (fun v => (v.k, v.b, v.get 0, v.get 1, v.get 2))
        = some (3, 3, 4, 0, 2) ∧
      (constructFrom [4, 0, 2] 2).map (fun v => (v.rank 2, v.rank_bigger 2, v.rank_lower 2))
        = some (1, 0, 18446744073709551615) := by
  constructor <;> decide

/-- Claim C16 as amended: at index `0` the three functions agree,
`rank_bigger(0) == rank(0)` and `rank_lower(0) == rank(0)`, for every vector
(the shifts by `index * (b+1)` that distinguish them are shifts by `0`). -/
theorem rank_variants_agree_at_zero (v : ConstTimeRankVec) :
    v.rank_bigger 0 = v.rank 0 ∧ v.rank_lower 0 = v.rank 0 := by
  constructor
  · simp [ConstTimeRankVec.rank_bigger, ConstTimeRankVec.rank]
  · simp [ConstTimeRankVec.rank_lower, ConstTimeRankVec.rank]

/-- Claim C17: for `ConstTimeRankVec(k, extra)` with `k + extra >= 2`,
`b = ceil(log2(k + extra))`, `b + 1 <= 30` and `k * (b + 1) <= 64`, holding
any values below `2 ^ b` (duplicates allowed), the constructor succeeds and
for every slot `i` `rank(i)` is the number of slots `j` with
`get(j) <= get(i)`, minus one; the product `(get(i) + 2^b) * mul` is below
`2 ^ 64`, it is `data` plus the word whose fields are the differences
`get(i) + 2^b - get(j)`, and each difference is positive and below
`2 ^ (b+1)`, so no field borrows from its neighbour. -/
theorem rank_counts_less_or_equal (elems : List Nat) (other : Nat)
    (h2 : 2 ≤ elems.length + other)
    (hw : Nat.clog 2 (elems.length + other) + 1 ≤ 30)
    (hcap : elems.length * (Nat.clog 2 (elems.length + other) + 1) ≤ 64)
    (hval : ∀ e ∈ elems, e < 2 ^ Nat.clog 2 (elems.length + other)) :
    ∃ v, constructFrom elems other = some v ∧
      v.b = Nat.clog 2 (elems.length + other) ∧ v.k = elems.length ∧
      ∀ i, i < elems.length →
        v.rank i
          = (List.range elems.length).countP (fun j => decide (v.get j ≤ v.get i)) - 1 ∧
        v.get i = elems.getD i 0 ∧
        (v.get i + 2 ^ v.b) * v.mul < 2 ^ 64 ∧
        (v.get i + 2 ^ v.b) * v.mul
          = v.data + pack (v.b + 1) (elems.map (fun x => v.get i + 2 ^ v.b - x)) ∧
        ∀ x ∈ elems, x < v.get i + 2 ^ v.b ∧ v.get i + 2 ^ v.b - x < 2 ^ (v.b + 1) := by
  have hW : wordMod = 2 ^ 64 := rfl
  have hpow : elems.length + other ≤ 2 ^ Nat.clog 2 (elems.length + other) :=
    Nat.le_pow_clog (by decide) _
  have h29 : 2 ^ Nat.clog 2 (elems.length + other) ≤ 2 ^ 29 :=
    Nat.pow_le_pow_right (by decide) (by omega)
  have hmod : (elems.length + other) % wordMod = elems.length + other := by
    rw [hW]; exact Nat.mod_eq_of_lt (by omega)
  have hlmod : elems.length % wordMod = elems.length := by
    rw [hW]; exact Nat.mod_eq_of_lt (by omega)
  have hclog : ceilLog2 (elems.length + other) = Nat.clog 2 (elems.length + other) :=
    ceilLog2_eq_clog _ (by omega)
  have hb1 : 1 ≤ Nat.clog 2 (elems.length + other) := Nat.clog_pos (by decide) h2
  have hsome : constructFrom elems other ≠ none := by
    rw [Ne, constructFrom_eq_none_iff, construct_eq_none_iff, hlmod, overCapacity_initVec, hmod,
      hclog, hW,
      Nat.mod_eq_of_lt (show Nat.clog 2 (elems.length + other) + 1 < 2 ^ 64 by omega),
      Nat.mod_eq_of_lt (show elems.length * (Nat.clog 2 (elems.length + other) + 1) < 2 ^ 64
        by omega)]
    omega
  obtain ⟨v, hc⟩ := Option.ne_none_iff_exists'.mp hsome
  obtain ⟨hH, hvb, hvk⟩ := constructFrom_holds elems other _ v hc (by omega)
    (by rw [hmod]; exact hclog) hw (by omega)
    (fun e he => lt_of_lt_of_le (hval e he) (Nat.pow_le_pow_right (by decide) (Nat.le_succ _)))
  have hget : ∀ j, j < elems.length → v.get j = elems.getD j 0 :=
    fun j hj => hH.packed.get_eq j (by rw [hvk]; exact hj)
  have hvals : ∀ x ∈ elems, x < 2 ^ v.b := by rw [hvb]; exact hval
  refine ⟨v, hc, hvb, hvk, ?_⟩
  intro i hi
  have hik : i < v.k := by rw [hvk]; exact hi
  have hnw := hH.product_no_wrap hvals i hik
  refine ⟨?_, hget i hi, hnw.1, hnw.2, ?_⟩
  · rw [hH.rank_count (by rw [hvb]; exact hb1) hvals i hik,
      ← countP_range_getD elems (fun y => decide (y ≤ elems.getD i 0))]
    congr 1
    apply List.countP_congr
    intro j hj
    rw [List.mem_range] at hj
    rw [hget j hj, hget i hi]
  · intro x hx
    have hx2 := hvals x hx
    have hg : v.get i < 2 ^ v.b := by
      rw [hget i hi]; exact getD_lt elems _ i (Nat.two_pow_pos _) hvals
    have hpw : 2 ^ (v.b + 1) = 2 * 2 ^ v.b := by rw [Nat.pow_succ, Nat.mul_comm]
    omega

/-- The theorem `rank_counts_less_or_equal` applies to
`ConstTimeRankVec(3, 1)` holding `1, 1, 0`. -/
theorem rank_counts_less_or_equal_witness :
    2 ≤ [1, 1, 0].length + 1 ∧
      Nat.clog 2 ([1, 1, 0].length + 1) + 1 ≤ 30 ∧
      [1, 1, 0].length * (Nat.clog 2 ([1, 1, 0].length + 1) + 1) ≤ 64 ∧
      (∀ e ∈ [1, 1, 0], e < 2 ^ Nat.clog 2 ([1, 1, 0].length + 1)) ∧
      ∃ v, constructFrom [1, 1, 0] 1 = some v ∧
        v.b = Nat.clog 2 ([1, 1, 0].length + 1) ∧ v.k = [1, 1, 0].length ∧
        ∀ i, i < [1, 1, 0].length →
          v.rank i
            = (List.range [1, 1, 0].length).countP (fun j => decide (v.get j ≤ v.get i)) - 1 ∧
          v.get i = [1, 1, 0].getD i 0 ∧
          (v.get i + 2 ^ v.b) * v.mul < 2 ^ 64 ∧
          (v.get i + 2 ^ v.b) * v.mul
            = v.data + pack (v.b + 1) ([1, 1, 0].map (fun x => v.get i + 2 ^ v.b - x)) ∧
          ∀ x ∈ [1, 1, 0], x < v.get i + 2 ^ v.b ∧ v.get i + 2 ^ v.b - x < 2 ^ (v.b + 1) :=
  ⟨by decide, by rw [clog_4]; decide, by rw [clog_4]; decide, by rw [clog_4]; decide,
    rank_counts_less_or_equal [1, 1, 0] 1 (by decide) (by rw [clog_4]; decide)
      (by rw [clog_4]; decide) (by rw [clog_4]; decide)⟩

/-- Claim C18 (loop invariant: slot `p` holds the shifted value of the element
at position `p`, and the offset `rank - i` is non-negative and less than
`n - i`) fails for the two element range `0, 2 ^ 30 - 1` (`b = 30`): already
at loop entry `get(0)` is `2305843004918726656` instead of `0`; `rank(0)` is
`0`, the cursor moves to `1`, and there `rank(1)` is `2 ^ 31`, so the offset
`rank - i` is `2 ^ 31 - 1`, not less than `n - i = 1`, and `iter_swap` is
called with position `2 ^ 31`. -/
theorem loop_invariant_fails_at_field_width_31 (fuel : Nat) :
    (constructFrom [0, 1073741823] 1073741822).map
        (fun v => (v.b, v.get 0, v.get 1, v.rank 0, v.rank 1))
      = some (30, 2305843004918726656, 1073741823, 0, 2147483648) ∧
      linearRankSort true (fuel + 2) [0, 1073741823] = Outcome.outOfRange 1 (2 ^ 31) :=
  ⟨by decide, rfl⟩

/-- Claim C19: whenever `linearRankSort` (with either setting of
`calculateMinMax`) raises the overflow error, the range after the call is the
range before the call, and the error is already raised when the placement loop
is allowed no iteration at all: it comes from the constructor of the rank
vector. -/
theorem linearRankSort_overflow_atomic (c : Bool) (fuel : Nat) (seq : List Int)
    (h : linearRankSort c fuel seq = Outcome.overflowError) :
    rangeAfter c fuel seq = seq ∧ linearRankSort c 0 seq = Outcome.overflowError := by
  cases seq with
  | nil => exact Outcome.noConfusion h
  | cons x xs =>
    rw [linearRankSort_cons] at h
    rw [rangeAfter_cons, linearRankSort_cons]
    generalize detail.constructFrom _ _ = o at h ⊢
    cases o with
    | none => exact ⟨rfl, rfl⟩
    | some v => exact absurd h (placementLoop_ne_overflowError _ _ _ _ _ _)

/-- The theorem `linearRankSort_overflow_atomic` applies to the range
`0, 2 ^ 31, 1`, on which the overflow error is raised. -/
theorem linearRankSort_overflow_atomic_witness :
    linearRankSort true 7 [0, 2147483648, 1] = Outcome.overflowError ∧
      rangeAfter true 7 [0, 2147483648, 1] = [0, 2147483648, 1] ∧
      linearRankSort true 0 [0, 2147483648, 1] = Outcome.overflowError :=
  ⟨by decide, linearRankSort_overflow_atomic true 7 [0, 2147483648, 1] (by decide)⟩
/-- Claim C20 (`rank_bigger(i)` is the number of slots `j > i` with
`get(j) < get(i)`) fails for `ConstTimeRankVec(2, 2^30 - 2)` (`b = 30`,
accepted since `2 * 31 <= 64`) holding the distinct values `2, 0`: `get(0)`
is `2`, `get(1)` is `0`, one slot after slot `0` holds a smaller value, and
`rank_bigger(0)` is `2 ^ 31`. -/
theorem rank_bigger_wrong_at_field_width_31 :
    (constructFrom [2, 0] 1073741822).map
        (fun v => (v.k, v.b, v.get 0, v.get 1, v.rank_bigger 0))
      = some (2, 30, 2, 0, 2147483648) := by
  decide

end bxlx
